import Mathlib

/-!
Verification of the MCTS core of the P3MCTS repository.

The repository contains three variants of the same Monte Carlo Tree Search
bot: mcts_vanilla.py (iteration budget 1000), experiment1/mcts_vanilla400.py
(budget 400) and experiment2/mcts_modified500.py (budget 500).  This file
embeds the tree data model and the four search phases (selection, expansion,
rollout, backpropagation) of the vanilla and experiment1 variants as pure
Lean functions and proves, or refutes, the frozen claims about them.
Throughout, σ is the opaque game-state type and α the action type.

Modelling conventions:
 - Python floats are embedded as real numbers.  Real division by zero is
   total in Lean (it yields 0) where Python raises ZeroDivisionError; all
   claims about division safety are settled through visit-count invariants,
   never through this totalisation.
 - The mutable node graph with parent pointers is embedded as an inductive
   tree; a node is addressed by the list of actions leading to it from the
   root, and the parent chain of a node is exactly the set of prefixes of
   its address.  The source keeps child.parent_action equal to the key under
   which the child is registered in the parent's dictionary, so the key in
   the children association list plays both roles.
 - random.choice(xs) is embedded as indexing xs with rng c % xs.length for
   an ambient stream rng : Nat -> Nat and a counter c that increases by one
   per consumed random value; choice on an empty list (an IndexError in
   Python) and dereferencing None become the none case of Option.
 - while loops that walk the finite tree or play a game out are embedded
   with an explicit fuel parameter; fuel exhaustion also yields none.
-/

/-- The external game abstraction consumed by the search core, with the
player identities represented by natural numbers (the sources hardcode the
two players as the integers 1 and 2).  points_values s p is the score the
game reports for player p at state s. -/
structure Game (σ : Type) (α : Type) where
  legal_actions : σ → List α
  next_state : σ → α → σ
  is_ended : σ → Bool
  current_player : σ → Nat
  points_values : σ → Nat → Int

/-- Modelled from the spec: the MCTSNode class is imported from a module
mcts_node that is not part of the three source files.  Per the data model
section of the spec, a node carries non-negative wins and visits counters
(initially zero), the ordered list of untried actions (initially the full
legal-action list passed at construction), and the mapping from actions to
child nodes (initially empty, insertion ordered).  The parent and
parent_action fields are represented structurally: a node is addressed by
its path from the root and parent_action is the key in the parent's
child_nodes association list. -/
inductive MCTSNode (α : Type) : Type where
  | mk (wins : Nat) (visits : Nat) (untried_actions : List α)
       (child_nodes : List (α × MCTSNode α)) : MCTSNode α

namespace MCTSNode

def wins : MCTSNode α → Nat
  | mk w _ _ _ => w

def visits : MCTSNode α → Nat
  | mk _ v _ _ => v

def untried_actions : MCTSNode α → List α
  | mk _ _ u _ => u

def child_nodes : MCTSNode α → List (α × MCTSNode α)
  | mk _ _ _ cs => cs

end MCTSNode

section TreePrimitives

variable {σ α : Type} [DecidableEq α]

/-- Lookup in a Python dictionary represented as an insertion-ordered
association list: the first matching key wins. -/
def lookupChild : List (α × MCTSNode α) → α → Option (MCTSNode α)
  | [], _ => none
  | (k, c) :: rest, a => if k = a then some c else lookupChild rest a

/-- Assignment d[k] = v on a Python dictionary represented as an
insertion-ordered association list: replace in place if the key is present,
otherwise append at the end. -/
def dictSet : List (α × MCTSNode α) → α → MCTSNode α →
    List (α × MCTSNode α)
  | [], a, c => [(a, c)]
  | (k, v) :: rest, a, c =>
      if k = a then (a, c) :: rest else (k, v) :: dictSet rest a c

/-- The node addressed by a path of actions from the root, if the path is
realised in the tree. -/
def getNode? : MCTSNode α → List α → Option (MCTSNode α)
  | t, [] => some t
  | t, a :: p =>
      match lookupChild t.child_nodes a with
      | none => none
      | some c => getNode? c p

/-- The (wins, visits) statistics of the node addressed by a path. -/
def statsAt (t : MCTSNode α) (p : List α) : Option (Nat × Nat) :=
  (getNode? t p).map fun n => (n.wins, n.visits)

/-- The untried-action list and children keys of the node addressed by a
path. -/
def shapeAt (t : MCTSNode α) (p : List α) :
    Option (List α × List α) :=
  (getNode? t p).map fun n => (n.untried_actions, n.child_nodes.map Prod.fst)

/-- Map a function over the entry of an association list carrying a given
key, leaving other entries alone. -/
def updEntry (a : α) (f : MCTSNode α → MCTSNode α) (kc : α × MCTSNode α) :
    α × MCTSNode α :=
  if kc.1 = a then (kc.1, f kc.2) else kc

/-- Replace the node at the given path by the image of a function, leaving
everything else untouched.  This is how a Python in-place mutation of one
node reached through references is rendered on the pure tree. -/
def modifyAt (f : MCTSNode α → MCTSNode α) :
    MCTSNode α → List α → MCTSNode α
  | t, [] => f t
  | .mk w v u cs, a :: p =>
      .mk w v u (cs.map (updEntry a fun c => modifyAt f c p))

/-- One statistics update of backpropagation: wins += 1 if won else 0,
visits += 1 (mcts_vanilla.py lines 117-118, mcts_vanilla400.py 106-107). -/
def bump (won : Bool) : MCTSNode α → MCTSNode α
  | .mk w v u cs => .mk (w + if won then 1 else 0) (v + 1) u cs

/-- Backpropagation: the source walks from the given node to the root along
parent references, applying bump at every node on the way (including both
ends).  On the path representation this updates every node on the root-to-
node path, i.e. every prefix of the address. -/
def backpropagate (won : Bool) : MCTSNode α → List α → MCTSNode α
  | t, [] => bump won t
  | .mk w v u cs, a :: p =>
      .mk (w + if won then 1 else 0) (v + 1) u
        (cs.map (updEntry a fun c => backpropagate won c p))

/-- Sum of the visits counters over the direct children of a node. -/
def sumChildVisits (t : MCTSNode α) : Nat :=
  (t.child_nodes.map fun kc => kc.2.visits).sum

end TreePrimitives

/-! UCT scoring.  explore_faction is the fixed exploration constant, set to
2.0 in all three source files. -/

def explore_faction : Real := 2

/-- The per-child selection score of mcts_vanilla.py line 42:
ratio = child.wins / child.visits, then
(ratio if mover is the bot else 1 - ratio)
  + explore_faction * sqrt(log(current.visits / child.visits)). -/
noncomputable def uct_vanilla (wins visits parent_visits : Nat)
    (mover_is_bot : Bool) : Real :=
  (if mover_is_bot then (wins : Real) / visits else 1 - (wins : Real) / visits)
    + explore_faction * Real.sqrt (Real.log ((parent_visits : Real) / visits))

/-- The per-child selection score of mcts_vanilla400.py lines 35-38 (and of
mcts_modified500.py lines 34-37):
exploit_term = child.wins / float(child.visits),
explore_term = explore_faction * sqrt(log(current.visits) / child.visits),
(exploit_term if mover is the bot else 1 - exploit_term) + explore_term. -/
noncomputable def uct_exp1 (wins visits parent_visits : Nat)
    (mover_is_bot : Bool) : Real :=
  (if mover_is_bot then (wins : Real) / visits else 1 - (wins : Real) / visits)
    + explore_faction * Real.sqrt (Real.log (parent_visits : Real) / visits)

/-- Modelled from the spec: the Selection Policy score as written in the
spec, score = (exploit if mover_at(state) == bot_identity else 1 - exploit)
+ C * sqrt(ln(parent.visits) / child.visits) with
exploit = child.wins / child.visits and C the exploration constant 2.0.
This definition exists only to be compared with the two definitions above,
which are taken from the source. -/
noncomputable def uct_spec (wins visits parent_visits : Nat)
    (mover_is_bot : Bool) : Real :=
  (if mover_is_bot then (wins : Real) / visits else 1 - (wins : Real) / visits)
    + explore_faction * Real.sqrt (Real.log (parent_visits : Real) / visits)

/-! Best-child scans.  The vanilla variant keeps one running best behind a
strict comparison; the experiment variants rebuild a candidate list and draw
from it at random. -/

section Scans

variable {β : Type}

/-- Running-best scan of mcts_vanilla.py lines 36-45 (also used, with the
win ratio as score and a non-strict comparison, at lines 153-163): starting
from best_UCT = 0 and best_child = None, replace the best on a strictly
greater score. -/
noncomputable def vanillaScanAux (score : β → Real) :
    Real × Option β → List β → Real × Option β
  | acc, [] => acc
  | (b, bc), c :: rest =>
      if score c > b then vanillaScanAux score (score c, some c) rest
      else vanillaScanAux score (b, bc) rest

noncomputable def vanillaScan (score : β → Real) (cs : List β) :
    Real × Option β :=
  vanillaScanAux score (0, none) cs

/-- Running-best scan of the final action choice of mcts_vanilla.py lines
153-163: best_ratio starts at 0 and best_child at None, and the best child
is replaced whenever ratio >= best_ratio. -/
noncomputable def vanillaFinalAux (score : β → Real) :
    Real × Option β → List β → Real × Option β
  | acc, [] => acc
  | (b, bc), c :: rest =>
      if score c ≥ b then vanillaFinalAux score (score c, some c) rest
      else vanillaFinalAux score (b, bc) rest

/-- Candidate-list scan of mcts_vanilla400.py lines 29-45 (and 152-163):
starting from best_UCT = 0 and best_children = [], append a child whose
score equals the best, and restart the list from the child alone on a
strictly greater score. -/
noncomputable def e1ScanAux (score : β → Real) :
    Real × List β → List β → Real × List β
  | acc, [] => acc
  | (b, bs), c :: rest =>
      if score c = b then e1ScanAux score (b, bs ++ [c]) rest
      else if score c > b then e1ScanAux score (score c, [c]) rest
      else e1ScanAux score (b, bs) rest

noncomputable def e1Scan (score : β → Real) (cs : List β) : Real × List β :=
  e1ScanAux score (0, []) cs

end Scans

/-! The two search variants.  Functions keep the names of the source
functions, inside a namespace per file. -/

namespace Vanilla

variable {σ α : Type} [DecidableEq α]

/-- Selection of mcts_vanilla.py (traverse_nodes, lines 11-50).  Stops as
soon as the current node has untried actions, or failing that the current
state is terminal; otherwise scores every child with uct_vanilla against
the mover of the current (parent) state and descends into the unique
running best.  A None best child (possible when every score is <= 0) makes
the source crash with an AttributeError on best_child.parent_action, which
is the none outcome here.  Returns the path of the reached node, the node,
and the state reached. -/
noncomputable def traverse_nodes (g : Game σ α) (identity : Nat) :
    Nat → MCTSNode α → σ → Option (List α × MCTSNode α × σ)
  | 0, _, _ => none
  | fuel + 1, t, s =>
      if t.untried_actions ≠ [] then some ([], t, s)
      else if g.is_ended s then some ([], t, s)
      else
        match (vanillaScan
            (fun kc : α × MCTSNode α =>
              uct_vanilla kc.2.wins kc.2.visits t.visits
                (g.current_player s == identity)) t.child_nodes).2 with
        | none => none
        | some (a, c) =>
            (traverse_nodes g identity fuel c (g.next_state s a)).map
              fun r => (a :: r.1, r.2)

/-- Expansion of mcts_vanilla.py (expand_leaf, lines 53-79) together with
the registration of the child performed by think at line 149: pick a random
untried action, remove it from untried_actions, and register a fresh child
(zero statistics, untried actions the legal actions of the successor state)
under that action.  Returns the chosen action and the updated node. -/
def expand_leaf (g : Game σ α) (t : MCTSNode α) (s : σ) (pick : Nat) :
    Option (α × MCTSNode α) :=
  match t.untried_actions[pick % t.untried_actions.length]? with
  | none => none
  | some chosen =>
      some (chosen,
        MCTSNode.mk t.wins t.visits (t.untried_actions.erase chosen)
          (dictSet t.child_nodes chosen
            (MCTSNode.mk 0 0 (g.legal_actions (g.next_state s chosen)) [])))

/-- Playout loop of mcts_vanilla.py rollout (lines 94-96) for a fixed
identity: play uniformly random legal actions until the game ends, then
report whether the final mover differs from that identity (lines 98-105). -/
def rolloutLoop (g : Game σ α) (rng : Nat → Nat) (identity : Nat) :
    Nat → Nat → σ → Option (Bool × Nat)
  | 0, _, _ => none
  | fuel + 1, c, s =>
      if g.is_ended s then some (identity != g.current_player s, c)
      else
        match (g.legal_actions s)[rng c % (g.legal_actions s).length]? with
        | none => none
        | some m => rolloutLoop g rng identity fuel (c + 1) (g.next_state s m)

/-- Rollout of mcts_vanilla.py (lines 81-105): the compared identity is
derived once from the start state as 1 if its mover is 2 else 2 (line 90);
the bot identity and points_values are not consulted. -/
def rollout (g : Game σ α) (rng : Nat → Nat) (fuel c : Nat) (s : σ) :
    Option (Bool × Nat) :=
  rolloutLoop g rng (if g.current_player s == 2 then 1 else 2) fuel c s

/-- One iteration of the think loop of mcts_vanilla.py (lines 138-151):
selection, and then only when the reached node still has untried actions,
expansion, rollout from the expanded state, and backpropagation from the
new child.  When the reached node has no untried actions the iteration
leaves the tree untouched. -/
noncomputable def iter (g : Game σ α) (rng : Nat → Nat) (identity : Nat)
    (s0 : σ) (fuel : Nat) (t : MCTSNode α) (c : Nat) :
    Option (MCTSNode α × Nat) :=
  match traverse_nodes g identity fuel t s0 with
  | none => none
  | some (p, leaf, ns) =>
      if leaf.untried_actions ≠ [] then
        match expand_leaf g leaf ns (rng c) with
        | none => none
        | some (chosen, leafUpd) =>
            match rollout g rng fuel (c + 1) (g.next_state ns chosen) with
            | none => none
            | some (won, c2) =>
                some (backpropagate won
                  (modifyAt (fun _ => leafUpd) t p) (p ++ [chosen]), c2)
      else some (t, c)

/-- The think loop of mcts_vanilla.py after n iterations, starting from the
fresh root (wins 0, visits 0, untried the legal actions of the root state,
no children, line 136). -/
noncomputable def loop (g : Game σ α) (rng : Nat → Nat) (identity : Nat)
    (s0 : σ) (fuel : Nat) : Nat → Option (MCTSNode α × Nat)
  | 0 => some (MCTSNode.mk 0 0 (g.legal_actions s0) [], 0)
  | n + 1 => (loop g rng identity s0 fuel n).bind
      fun tc => iter g rng identity s0 fuel tc.1 tc.2

/-- think of mcts_vanilla.py (lines 125-166), with the iteration budget N a
parameter (the file fixes num_nodes = 1000): run the loop, then scan the
root children keeping the child whose win ratio is >= the running best
(initially 0), and return its key.  With no children the scan leaves
best_child = None and line 166 crashes on best_child.parent_action, the
none outcome. -/
noncomputable def think (g : Game σ α) (rng : Nat → Nat) (fuel N : Nat)
    (s0 : σ) : Option α :=
  match loop g rng (g.current_player s0) s0 fuel N with
  | none => none
  | some (t, _) =>
      match (vanillaFinalAux
          (fun kc : α × MCTSNode α => (kc.2.wins : Real) / kc.2.visits)
          (0, none) t.child_nodes).2 with
      | none => none
      | some (k, _) => some k

end Vanilla

/-- Iteration budget constant num_nodes of mcts_vanilla.py. -/
def num_nodes_vanilla : Nat := 1000

namespace Exp1

variable {σ α : Type} [DecidableEq α]

/-- Selection of mcts_vanilla400.py (traverse_nodes, lines 9-51).  Stops as
soon as the current state is terminal, or failing that the current node has
untried actions; otherwise scores every child with uct_exp1 against the
mover of the current (parent) state, collects all children sharing the best
score and descends into a uniformly random one of them.  choice on an empty
candidate list raises IndexError in the source, the none outcome here.
Returns the path of the reached node, the node, the state reached, and the
updated random counter. -/
noncomputable def traverse_nodes (g : Game σ α) (identity : Nat)
    (rng : Nat → Nat) :
    Nat → Nat → MCTSNode α → σ → Option (List α × MCTSNode α × σ × Nat)
  | 0, _, _, _ => none
  | fuel + 1, c, t, s =>
      if g.is_ended s then some ([], t, s, c)
      else if t.untried_actions ≠ [] then some ([], t, s, c)
      else
        let best := (e1Scan
            (fun kc : α × MCTSNode α =>
              uct_exp1 kc.2.wins kc.2.visits t.visits
                (g.current_player s == identity)) t.child_nodes).2
        match best[rng c % best.length]? with
        | none => none
        | some (a, ch) =>
            (traverse_nodes g identity rng fuel (c + 1) ch (g.next_state s a)).map
              fun r => (a :: r.1, r.2)

/-- Expansion of mcts_vanilla400.py (expand_leaf, lines 54-73): identical in
effect to the vanilla expansion, with the registration of the child under
the chosen action performed inside the function itself (line 71). -/
def expand_leaf (g : Game σ α) (t : MCTSNode α) (s : σ) (pick : Nat) :
    Option (α × MCTSNode α) :=
  match t.untried_actions[pick % t.untried_actions.length]? with
  | none => none
  | some chosen =>
      some (chosen,
        MCTSNode.mk t.wins t.visits (t.untried_actions.erase chosen)
          (dictSet t.child_nodes chosen
            (MCTSNode.mk 0 0 (g.legal_actions (g.next_state s chosen)) [])))

/-- Rollout of mcts_vanilla400.py (lines 75-92): play uniformly random
legal actions until the game ends, then report whether points_values at the
final state gives exactly 1 to the passed identity (line 92). -/
def rollout (g : Game σ α) (rng : Nat → Nat) (identity : Nat) :
    Nat → Nat → σ → Option (Bool × Nat)
  | 0, _, _ => none
  | fuel + 1, c, s =>
      if g.is_ended s then some (g.points_values s identity == 1, c)
      else
        match (g.legal_actions s)[rng c % (g.legal_actions s).length]? with
        | none => none
        | some m => rollout g rng identity fuel (c + 1) (g.next_state s m)

/-- The playout part of the rollout loop alone: the terminal state reached
by the same sequence of random moves, without the final scoring step.  Used
to state what the rollout outcome is a function of. -/
def playout (g : Game σ α) (rng : Nat → Nat) :
    Nat → Nat → σ → Option (σ × Nat)
  | 0, _, _ => none
  | fuel + 1, c, s =>
      if g.is_ended s then some (s, c)
      else
        match (g.legal_actions s)[rng c % (g.legal_actions s).length]? with
        | none => none
        | some m => playout g rng fuel (c + 1) (g.next_state s m)

/-- One iteration of the think loop of mcts_vanilla400.py (lines 129-150):
selection; if the reached state is not terminal, expansion and advance of
the state to the new child, else the reached node itself is kept; rollout
with the bot identity; backpropagation from the expanded or reached node. -/
noncomputable def iter (g : Game σ α) (rng : Nat → Nat) (identity : Nat)
    (s0 : σ) (fuel : Nat) (t : MCTSNode α) (c : Nat) :
    Option (MCTSNode α × Nat) :=
  match traverse_nodes g identity rng fuel c t s0 with
  | none => none
  | some (p, leaf, ns, c1) =>
      if g.is_ended ns then
        match rollout g rng identity fuel c1 ns with
        | none => none
        | some (won, c2) => some (backpropagate won t p, c2)
      else
        match expand_leaf g leaf ns (rng c1) with
        | none => none
        | some (chosen, leafUpd) =>
            match rollout g rng identity fuel (c1 + 1)
                (g.next_state ns chosen) with
            | none => none
            | some (won, c2) =>
                some (backpropagate won
                  (modifyAt (fun _ => leafUpd) t p) (p ++ [chosen]), c2)

/-- The think loop of mcts_vanilla400.py after n iterations, starting from
the fresh root (line 127). -/
noncomputable def loop (g : Game σ α) (rng : Nat → Nat) (identity : Nat)
    (s0 : σ) (fuel : Nat) : Nat → Option (MCTSNode α × Nat)
  | 0 => some (MCTSNode.mk 0 0 (g.legal_actions s0) [], 0)
  | n + 1 => (loop g rng identity s0 fuel n).bind
      fun tc => iter g rng identity s0 fuel tc.1 tc.2

/-- think of mcts_vanilla400.py (lines 114-168), with the iteration budget
N a parameter (the file fixes num_nodes = 400): run the loop, then collect
the root children of maximal win ratio with the candidate-list scan
(initial best 0) and return the key of a uniformly random one of them.
choice on an empty candidate list raises IndexError, the none outcome. -/
noncomputable def think (g : Game σ α) (rng : Nat → Nat) (fuel N : Nat)
    (s0 : σ) : Option α :=
  match loop g rng (g.current_player s0) s0 fuel N with
  | none => none
  | some (t, c) =>
      let best := (e1Scan
          (fun kc : α × MCTSNode α => (kc.2.wins : Real) / kc.2.visits)
          t.child_nodes).2
      match best[rng c % best.length]? with
      | none => none
      | some (k, _) => some k

end Exp1

/-- Iteration budget constant num_nodes of mcts_vanilla400.py. -/
def num_nodes_exp1 : Nat := 400

/-- Iteration budget constant num_nodes of mcts_modified500.py. -/
def num_nodes_exp2 : Nat := 500

/-! Concrete games used for witnesses and counterexamples. -/

/-- A one-move game: from the non-terminal state false the single mover
(player 1) has the single action 0 leading to the terminal state true,
which awards 1 point to player 1.  Starting think at the terminal state
true makes the root terminal with no legal actions. -/
def gW : Game Bool Nat where
  legal_actions := fun s => if s then [] else [0]
  next_state := fun _ _ => true
  is_ended := fun s => s
  current_player := fun _ => 1
  points_values := fun s p => if s && (p == 1) then 1 else 0

/-- A one-move game that always ends in a draw: points_values is 0 for
every player at every state, and every state reports player 2 as the
mover. -/
def gR : Game Bool Nat where
  legal_actions := fun s => if s then [] else [0]
  next_state := fun _ _ => true
  is_ended := fun s => s
  current_player := fun _ => 2
  points_values := fun _ _ => 0

/-- The constant-zero random stream (random.choice always picks the first
element). -/
def rngW : Nat → Nat := fun _ => 0

section ModelPredicates

variable {σ α : Type} [DecidableEq α]

/-- The node update performed by one expansion at a leaf: untried actions
replaced (by the erase of the chosen action) and a fresh zero-statistics
child registered under the chosen action. -/
def expandUpd (leaf : MCTSNode α) (chosen : α) (u' ua : List α) : MCTSNode α :=
  MCTSNode.mk leaf.wins leaf.visits u'
    (dictSet leaf.child_nodes chosen (MCTSNode.mk 0 0 ua []))

/-- Predicate verified by the entire tree at every boundary between think
iterations: every node has wins bounded by visits, duplicate-free untried
actions and children keys, untried actions disjoint from children keys, and
(except for the root) at least one recorded visit. -/
def TreeInv (t : MCTSNode α) : Prop :=
  ∀ p n, getNode? t p = some n →
    n.wins ≤ n.visits
    ∧ n.untried_actions.Nodup
    ∧ (n.child_nodes.map Prod.fst).Nodup
    ∧ (∀ a ∈ n.untried_actions, a ∉ n.child_nodes.map Prod.fst)
    ∧ (p ≠ [] → 1 ≤ n.visits)

end ModelPredicates

/-- The per-child score used during the selection walk of mcts_vanilla400.py
at a node of given visits, game state and bot identity. -/
noncomputable def Exp1.stepScore {σ α : Type} (g : Game σ α) (identity : Nat)
    (t : MCTSNode α) (s : σ) : α × MCTSNode α → Real :=
  fun kc => uct_exp1 kc.2.wins kc.2.visits t.visits (g.current_player s == identity)

/-- The per-child score used during the selection walk of mcts_vanilla.py
at a node of given visits, game state and bot identity. -/
noncomputable def Vanilla.stepScore {σ α : Type} (g : Game σ α) (identity : Nat)
    (t : MCTSNode α) (s : σ) : α × MCTSNode α → Real :=
  fun kc => uct_vanilla kc.2.wins kc.2.visits t.visits (g.current_player s == identity)

/-! Helper lemmas on the tree primitives. -/

namespace MCTSNode

@[simp] theorem wins_mk (w v : Nat) (u : List α) (cs : List (α × MCTSNode α)) :
    (MCTSNode.mk w v u cs).wins = w := rfl

@[simp] theorem visits_mk (w v : Nat) (u : List α) (cs : List (α × MCTSNode α)) :
    (MCTSNode.mk w v u cs).visits = v := rfl

@[simp] theorem untried_mk (w v : Nat) (u : List α) (cs : List (α × MCTSNode α)) :
    (MCTSNode.mk w v u cs).untried_actions = u := rfl

@[simp] theorem child_nodes_mk (w v : Nat) (u : List α) (cs : List (α × MCTSNode α)) :
    (MCTSNode.mk w v u cs).child_nodes = cs := rfl

end MCTSNode

section LookupLemmas

variable {α : Type} [DecidableEq α]

@[simp] theorem lookupChild_nil (a : α) : lookupChild ([] : List (α × MCTSNode α)) a = none := rfl

@[simp] theorem lookupChild_cons (k a : α) (c : MCTSNode α) (tl : List (α × MCTSNode α)) :
    lookupChild ((k, c) :: tl) a = if k = a then some c else lookupChild tl a := rfl

theorem lookupChild_eq_none {cs : List (α × MCTSNode α)} {a : α} :
    lookupChild cs a = none ↔ a ∉ cs.map Prod.fst := by
  induction cs with
  | nil => simp
  | cons hd tl ih =>
      obtain ⟨k, c⟩ := hd
      by_cases h : k = a
      · subst h; simp
      · have h2 : ¬ a = k := fun hh => h hh.symm
        simp [h, ih, h2]

theorem lookupChild_map_update (cs : List (α × MCTSNode α)) (a b : α)
    (f : MCTSNode α → MCTSNode α) :
    lookupChild (cs.map (updEntry a f)) b
      = if b = a then (lookupChild cs b).map f else lookupChild cs b := by
  induction cs with
  | nil => simp
  | cons hd tl ih =>
      obtain ⟨k, c⟩ := hd
      rw [List.map_cons]
      show lookupChild ((if k = a then (k, f c) else (k, c)) :: tl.map (updEntry a f)) b = _
      by_cases hk : k = a
      · rw [if_pos hk]
        by_cases hb : k = b
        · have hba : b = a := hb.symm.trans hk
          rw [lookupChild_cons, if_pos hb, if_pos hba, lookupChild_cons, if_pos hb,
            Option.map_some']
        · rw [lookupChild_cons, if_neg hb, ih]
          by_cases hba : b = a
          · rw [if_pos hba, if_pos hba, lookupChild_cons, if_neg hb]
          · rw [if_neg hba, if_neg hba, lookupChild_cons, if_neg hb]
      · rw [if_neg hk]
        by_cases hb : k = b
        · have hba : ¬ b = a := fun h => hk (hb.trans h)
          rw [lookupChild_cons, if_pos hb, if_neg hba, lookupChild_cons, if_pos hb]
        · rw [lookupChild_cons, if_neg hb, ih]
          by_cases hba : b = a
          · rw [if_pos hba, if_pos hba, lookupChild_cons, if_neg hb]
          · rw [if_neg hba, if_neg hba, lookupChild_cons, if_neg hb]

theorem map_update_eq_of_not_mem {cs : List (α × MCTSNode α)} {a : α}
    (f : MCTSNode α → MCTSNode α) (h : a ∉ cs.map Prod.fst) :
    cs.map (updEntry a f) = cs := by
  induction cs with
  | nil => rfl
  | cons hd tl ih =>
      simp only [List.map_cons, List.mem_cons] at h ⊢
      push_neg at h
      rw [show updEntry a f hd = if hd.1 = a then (hd.1, f hd.2) else hd from rfl,
        if_neg (fun hh => h.1 hh.symm), ih h.2]

theorem lookupChild_dictSet (cs : List (α × MCTSNode α)) (a b : α)
    (c : MCTSNode α) :
    lookupChild (dictSet cs a c) b
      = if b = a then some c else lookupChild cs b := by
  induction cs with
  | nil =>
      by_cases hb : b = a
      · rw [show dictSet ([] : List (α × MCTSNode α)) a c = [(a, c)] from rfl,
          lookupChild_cons, if_pos hb.symm, if_pos hb]
      · rw [show dictSet ([] : List (α × MCTSNode α)) a c = [(a, c)] from rfl,
          lookupChild_cons, if_neg (fun h => hb h.symm), if_neg hb]
  | cons hd tl ih =>
      obtain ⟨k, v⟩ := hd
      by_cases hk : k = a
      · rw [show dictSet ((k, v) :: tl) a c = (a, c) :: tl from by simp [dictSet, hk]]
        by_cases hb : b = a
        · rw [lookupChild_cons, if_pos hb.symm, if_pos hb]
        · rw [lookupChild_cons, if_neg (fun h => hb h.symm), if_neg hb, lookupChild_cons,
            if_neg (fun h : k = b => hb (h.symm.trans hk))]
      · rw [show dictSet ((k, v) :: tl) a c = (k, v) :: dictSet tl a c from by
          simp [dictSet, hk]]
        by_cases hb : k = b
        · have hba : ¬ b = a := fun h => hk (hb.trans h)
          rw [lookupChild_cons, if_pos hb, if_neg hba, lookupChild_cons, if_pos hb]
        · rw [lookupChild_cons, if_neg hb, ih]
          by_cases hba : b = a
          · rw [if_pos hba, if_pos hba]
          · rw [if_neg hba, if_neg hba, lookupChild_cons, if_neg hb]

theorem dictSet_of_not_mem {cs : List (α × MCTSNode α)} {a : α}
    (c : MCTSNode α) (h : a ∉ cs.map Prod.fst) :
    dictSet cs a c = cs ++ [(a, c)] := by
  induction cs with
  | nil => rfl
  | cons hd tl ih =>
      obtain ⟨k, v⟩ := hd
      simp only [List.map_cons, List.mem_cons] at h
      push_neg at h
      have hk : ¬ k = a := fun hh => h.1 hh.symm
      simp [dictSet, hk, ih h.2]

end LookupLemmas

section BackpropLemmas

variable {α : Type} [DecidableEq α]

omit [DecidableEq α] in
@[simp] theorem bump_child_nodes (won : Bool) (t : MCTSNode α) :
    (bump won t).child_nodes = t.child_nodes := by cases t; rfl

omit [DecidableEq α] in
@[simp] theorem bump_untried (won : Bool) (t : MCTSNode α) :
    (bump won t).untried_actions = t.untried_actions := by cases t; rfl

omit [DecidableEq α] in
@[simp] theorem bump_wins (won : Bool) (t : MCTSNode α) :
    (bump won t).wins = t.wins + if won then 1 else 0 := by cases t; rfl

omit [DecidableEq α] in
@[simp] theorem bump_visits (won : Bool) (t : MCTSNode α) :
    (bump won t).visits = t.visits + 1 := by cases t; rfl

theorem backpropagate_nil (won : Bool) (t : MCTSNode α) :
    backpropagate won t [] = bump won t := by cases t; rfl

theorem backpropagate_cons (won : Bool) (w v : Nat) (u : List α)
    (cs : List (α × MCTSNode α)) (a : α) (p : List α) :
    backpropagate won (MCTSNode.mk w v u cs) (a :: p)
      = MCTSNode.mk (w + if won then 1 else 0) (v + 1) u
          (cs.map (updEntry a fun c => backpropagate won c p)) := rfl

theorem modifyAt_nil (f : MCTSNode α → MCTSNode α) (t : MCTSNode α) :
    modifyAt f t [] = f t := by cases t; rfl

theorem modifyAt_cons (f : MCTSNode α → MCTSNode α) (w v : Nat) (u : List α)
    (cs : List (α × MCTSNode α)) (a : α) (p : List α) :
    modifyAt f (MCTSNode.mk w v u cs) (a :: p)
      = MCTSNode.mk w v u (cs.map (updEntry a fun c => modifyAt f c p)) := rfl

theorem keys_map_upd (cs : List (α × MCTSNode α)) (a : α)
    (f : MCTSNode α → MCTSNode α) :
    (cs.map (updEntry a f)).map Prod.fst = cs.map Prod.fst := by
  induction cs with
  | nil => rfl
  | cons hd tl ih =>
      rw [List.map_cons, List.map_cons, List.map_cons, ih,
        show (updEntry a f hd).1 = hd.1 from by
          unfold updEntry; split <;> rfl]

theorem wins_backpropagate (won : Bool) (t : MCTSNode α) (p : List α) :
    (backpropagate won t p).wins = t.wins + if won then 1 else 0 := by
  cases t <;> cases p <;> rfl

theorem visits_backpropagate (won : Bool) (t : MCTSNode α) (p : List α) :
    (backpropagate won t p).visits = t.visits + 1 := by
  cases t <;> cases p <;> rfl

theorem untried_backpropagate (won : Bool) (t : MCTSNode α) (p : List α) :
    (backpropagate won t p).untried_actions = t.untried_actions := by
  cases t <;> cases p <;> rfl

theorem keys_backpropagate (won : Bool) (t : MCTSNode α) (p : List α) :
    (backpropagate won t p).child_nodes.map Prod.fst
      = t.child_nodes.map Prod.fst := by
  cases t with
  | mk w v u cs =>
      cases p with
      | nil => rw [backpropagate_nil]; simp
      | cons a q =>
          rw [backpropagate_cons]
          simp only [MCTSNode.child_nodes_mk]
          exact keys_map_upd cs a _

@[simp] theorem statsAt_nil (t : MCTSNode α) :
    statsAt t [] = some (t.wins, t.visits) := rfl

theorem statsAt_cons (t : MCTSNode α) (b : α) (q : List α) :
    statsAt t (b :: q) = match lookupChild t.child_nodes b with
      | none => none
      | some c => statsAt c q := by
  simp only [statsAt, getNode?]
  cases lookupChild t.child_nodes b <;> rfl

@[simp] theorem shapeAt_nil (t : MCTSNode α) :
    shapeAt t [] = some (t.untried_actions, t.child_nodes.map Prod.fst) := rfl

theorem shapeAt_cons (t : MCTSNode α) (b : α) (q : List α) :
    shapeAt t (b :: q) = match lookupChild t.child_nodes b with
      | none => none
      | some c => shapeAt c q := by
  simp only [shapeAt, getNode?]
  cases lookupChild t.child_nodes b <;> rfl

/-- Backpropagation changes the statistics of exactly the nodes on the
walked chain (the prefixes of the target address): those get wins
incremented when the outcome is a win and visits incremented by one, and
every other node keeps its statistics. -/
theorem statsAt_backpropagate (won : Bool) :
    ∀ (p' p : List α) (t : MCTSNode α),
    statsAt (backpropagate won t p) p' =
      if p' <+: p then
        (statsAt t p').map fun wv => (wv.1 + (if won then 1 else 0), wv.2 + 1)
      else statsAt t p' := by
  intro p'
  induction p' with
  | nil =>
      intro p t
      rw [if_pos List.nil_prefix, statsAt_nil, statsAt_nil, Option.map_some',
        wins_backpropagate, visits_backpropagate]
  | cons b q ih =>
      intro p t
      cases p with
      | nil =>
          have hnp : ¬ (b :: q <+: ([] : List α)) := by
            intro h
            simpa using List.eq_nil_of_prefix_nil h
          rw [if_neg hnp, backpropagate_nil, statsAt_cons, statsAt_cons,
            bump_child_nodes]
      | cons a p2 =>
          cases t with
          | mk w v u cs =>
              rw [backpropagate_cons, statsAt_cons, statsAt_cons]
              simp only [MCTSNode.child_nodes_mk]
              rw [lookupChild_map_update]
              by_cases hb : b = a
              · rw [if_pos hb]
                cases hlk : lookupChild cs b with
                | none =>
                    simp only [Option.map_none']
                    split <;> rfl
                | some c =>
                    simp only [Option.map_some']
                    rw [ih p2 c]
                    by_cases hq : q <+: p2
                    · rw [if_pos hq, if_pos (List.cons_prefix_cons.mpr ⟨hb, hq⟩)]
                    · rw [if_neg hq,
                        if_neg (fun h => hq (List.cons_prefix_cons.mp h).2)]
              · rw [if_neg hb,
                  if_neg (fun h => hb (List.cons_prefix_cons.mp h).1)]

/-- Backpropagation changes no untried-action list and no children keys
anywhere in the tree. -/
theorem shapeAt_backpropagate (won : Bool) :
    ∀ (p' p : List α) (t : MCTSNode α),
    shapeAt (backpropagate won t p) p' = shapeAt t p' := by
  intro p'
  induction p' with
  | nil =>
      intro p t
      rw [shapeAt_nil, shapeAt_nil, untried_backpropagate, keys_backpropagate]
  | cons b q ih =>
      intro p t
      cases p with
      | nil =>
          rw [backpropagate_nil, shapeAt_cons, shapeAt_cons, bump_child_nodes]
      | cons a p2 =>
          cases t with
          | mk w v u cs =>
              rw [backpropagate_cons, shapeAt_cons, shapeAt_cons]
              simp only [MCTSNode.child_nodes_mk]
              rw [lookupChild_map_update]
              by_cases hb : b = a
              · rw [if_pos hb]
                cases hlk : lookupChild cs b with
                | none => rfl
                | some c => simp only [Option.map_some']; exact ih p2 c
              · rw [if_neg hb]

end BackpropLemmas

section ExpandLemmas

variable {α : Type} [DecidableEq α]

theorem statsAt_cons_some {t c : MCTSNode α} {b : α}
    (h : lookupChild t.child_nodes b = some c) (q : List α) :
    statsAt t (b :: q) = statsAt c q := by
  rw [statsAt_cons, h]

theorem statsAt_cons_none {t : MCTSNode α} {b : α}
    (h : lookupChild t.child_nodes b = none) (q : List α) :
    statsAt t (b :: q) = none := by
  rw [statsAt_cons, h]

theorem shapeAt_cons_some {t c : MCTSNode α} {b : α}
    (h : lookupChild t.child_nodes b = some c) (q : List α) :
    shapeAt t (b :: q) = shapeAt c q := by
  rw [shapeAt_cons, h]

theorem shapeAt_cons_none {t : MCTSNode α} {b : α}
    (h : lookupChild t.child_nodes b = none) (q : List α) :
    shapeAt t (b :: q) = none := by
  rw [shapeAt_cons, h]

theorem expandUpd_child_nodes (leaf : MCTSNode α) (chosen : α) (u' ua : List α) :
    (expandUpd leaf chosen u' ua).child_nodes
      = dictSet leaf.child_nodes chosen (MCTSNode.mk 0 0 ua []) := rfl

/-- Statistics after grafting a fresh zero-statistics child under an unused
key at a valid path: the fresh child's address reports (0, 0) and every
other address keeps its statistics. -/
theorem statsAt_expand (chosen : α) (u' ua : List α) :
    ∀ (p p' : List α) (t leaf : MCTSNode α),
    getNode? t p = some leaf →
    chosen ∉ leaf.child_nodes.map Prod.fst →
    statsAt (modifyAt (fun _ => expandUpd leaf chosen u' ua) t p) p' =
      if p' = p ++ [chosen] then some (0, 0) else statsAt t p' := by
  intro p
  induction p with
  | nil =>
      intro p' t leaf hleaf hfresh
      have ht : t = leaf := by simpa [getNode?] using hleaf
      subst ht
      rw [modifyAt_nil]
      cases p' with
      | nil =>
          rw [if_neg (by simp), statsAt_nil, statsAt_nil]
          rfl
      | cons b q =>
          have hdict : lookupChild (expandUpd t chosen u' ua).child_nodes b
              = if b = chosen then some (MCTSNode.mk 0 0 ua []) else lookupChild t.child_nodes b := by
            rw [expandUpd_child_nodes, lookupChild_dictSet]
          by_cases hb : b = chosen
          · subst hb
            rw [if_pos rfl] at hdict
            rw [statsAt_cons_some hdict]
            have hlk : lookupChild t.child_nodes b = none :=
              lookupChild_eq_none.mpr hfresh
            rw [statsAt_cons_none hlk]
            cases q with
            | nil => rw [if_pos (by simp)]; rfl
            | cons c q2 =>
                rw [if_neg (by simp), statsAt_cons_none (by rfl)]
          · rw [if_neg hb] at hdict
            cases hlk : lookupChild t.child_nodes b with
            | none =>
                rw [hlk] at hdict
                rw [statsAt_cons_none hdict, statsAt_cons_none hlk,
                  if_neg (by simp [hb])]
            | some c =>
                rw [hlk] at hdict
                rw [statsAt_cons_some hdict, statsAt_cons_some hlk,
                  if_neg (by simp [hb])]
  | cons a p2 ih =>
      intro p' t leaf hleaf hfresh
      cases t with
      | mk w v u cs =>
          rw [modifyAt_cons]
          have hstep : ∃ c, lookupChild cs a = some c ∧ getNode? c p2 = some leaf := by
            simp only [getNode?, MCTSNode.child_nodes_mk] at hleaf
            cases hlk : lookupChild cs a with
            | none => rw [hlk] at hleaf; exact absurd hleaf (by simp)
            | some c => exact ⟨c, rfl, by rw [hlk] at hleaf; exact hleaf⟩
          obtain ⟨c, hlk, hgc⟩ := hstep
          cases p' with
          | nil =>
              rw [if_neg (by simp), statsAt_nil, statsAt_nil]
              rfl
          | cons b q =>
              have hup : lookupChild
                  ((MCTSNode.mk w v u (cs.map (updEntry a fun n =>
                    modifyAt (fun _ => expandUpd leaf chosen u' ua) n p2))).child_nodes) b
                  = if b = a then (lookupChild cs b).map
                      (fun n => modifyAt (fun _ => expandUpd leaf chosen u' ua) n p2)
                    else lookupChild cs b := by
                simp only [MCTSNode.child_nodes_mk]
                rw [lookupChild_map_update]
              by_cases hb : b = a
              · subst hb
                rw [if_pos rfl, hlk, Option.map_some'] at hup
                rw [statsAt_cons_some hup,
                  statsAt_cons_some (show lookupChild (MCTSNode.mk w v u cs).child_nodes b = some c from hlk),
                  ih q c leaf hgc hfresh]
                by_cases hq : q = p2 ++ [chosen]
                · rw [if_pos hq, if_pos (by rw [hq, List.cons_append])]
                · rw [if_neg hq, if_neg (by
                    intro h
                    rw [List.cons_append] at h
                    injection h with h1 h2
                    exact hq h2)]
              · rw [if_neg hb] at hup
                have hne : ¬ (b :: q = a :: p2 ++ [chosen]) := by
                  intro h
                  rw [List.cons_append] at h
                  injection h with h1 h2
                  exact hb h1
                rw [if_neg hne]
                cases hlb : lookupChild cs b with
                | none =>
                    rw [hlb] at hup
                    rw [statsAt_cons_none hup,
                      statsAt_cons_none (show lookupChild (MCTSNode.mk w v u cs).child_nodes b = none from hlb)]
                | some n =>
                    rw [hlb] at hup
                    rw [statsAt_cons_some hup,
                      statsAt_cons_some (show lookupChild (MCTSNode.mk w v u cs).child_nodes b = some n from hlb)]

/-- Shape after grafting a fresh child under an unused key at a valid path:
the expanded leaf gets the new untried list and its keys extended by the
chosen action, the fresh child reports its own untried list and no keys,
and every other address keeps its shape. -/
theorem shapeAt_expand (chosen : α) (u' ua : List α) :
    ∀ (p p' : List α) (t leaf : MCTSNode α),
    getNode? t p = some leaf →
    chosen ∉ leaf.child_nodes.map Prod.fst →
    shapeAt (modifyAt (fun _ => expandUpd leaf chosen u' ua) t p) p' =
      if p' = p then some (u', leaf.child_nodes.map Prod.fst ++ [chosen])
      else if p' = p ++ [chosen] then some (ua, [])
      else shapeAt t p' := by
  intro p
  induction p with
  | nil =>
      intro p' t leaf hleaf hfresh
      have ht : t = leaf := by simpa [getNode?] using hleaf
      subst ht
      rw [modifyAt_nil]
      cases p' with
      | nil =>
          rw [if_pos rfl, shapeAt_nil,
            show (expandUpd t chosen u' ua).untried_actions = u' from rfl,
            expandUpd_child_nodes, dictSet_of_not_mem _ hfresh]
          simp
      | cons b q =>
          rw [if_neg (by simp)]
          have hdict : lookupChild (expandUpd t chosen u' ua).child_nodes b
              = if b = chosen then some (MCTSNode.mk 0 0 ua [])
                else lookupChild t.child_nodes b := by
            rw [expandUpd_child_nodes, lookupChild_dictSet]
          by_cases hb : b = chosen
          · subst hb
            rw [if_pos rfl] at hdict
            rw [shapeAt_cons_some hdict]
            have hlk : lookupChild t.child_nodes b = none :=
              lookupChild_eq_none.mpr hfresh
            cases q with
            | nil => rw [if_pos (by simp), shapeAt_nil]; rfl
            | cons c q2 =>
                rw [if_neg (by simp), shapeAt_cons_none hlk,
                  shapeAt_cons_none (by rfl)]
          · rw [if_neg hb] at hdict
            rw [if_neg (by simp [hb])]
            cases hlk : lookupChild t.child_nodes b with
            | none =>
                rw [hlk] at hdict
                rw [shapeAt_cons_none hdict, shapeAt_cons_none hlk]
            | some c =>
                rw [hlk] at hdict
                rw [shapeAt_cons_some hdict, shapeAt_cons_some hlk]
  | cons a p2 ih =>
      intro p' t leaf hleaf hfresh
      cases t with
      | mk w v u cs =>
          rw [modifyAt_cons]
          have hstep : ∃ c, lookupChild cs a = some c ∧ getNode? c p2 = some leaf := by
            simp only [getNode?, MCTSNode.child_nodes_mk] at hleaf
            cases hlk : lookupChild cs a with
            | none => rw [hlk] at hleaf; exact absurd hleaf (by simp)
            | some c => exact ⟨c, rfl, by rw [hlk] at hleaf; exact hleaf⟩
          obtain ⟨c, hlk, hgc⟩ := hstep
          cases p' with
          | nil =>
              rw [if_neg (by simp), if_neg (by simp), shapeAt_nil, shapeAt_nil]
              simp only [MCTSNode.untried_mk, MCTSNode.child_nodes_mk]
              rw [keys_map_upd]
          | cons b q =>
              have hup : lookupChild
                  ((MCTSNode.mk w v u (cs.map (updEntry a fun n =>
                    modifyAt (fun _ => expandUpd leaf chosen u' ua) n p2))).child_nodes) b
                  = if b = a then (lookupChild cs b).map
                      (fun n => modifyAt (fun _ => expandUpd leaf chosen u' ua) n p2)
                    else lookupChild cs b := by
                simp only [MCTSNode.child_nodes_mk]
                rw [lookupChild_map_update]
              by_cases hb : b = a
              · subst hb
                rw [if_pos rfl, hlk, Option.map_some'] at hup
                rw [shapeAt_cons_some hup,
                  shapeAt_cons_some (show lookupChild (MCTSNode.mk w v u cs).child_nodes b = some c from hlk),
                  ih q c leaf hgc hfresh]
                simp only [List.cons_append, List.cons.injEq, eq_self_iff_true, true_and]
              · rw [if_neg hb] at hup
                rw [if_neg (by intro h; injection h with h3 h4; exact hb h3)]
                rw [if_neg (by
                    intro h
                    rw [List.cons_append] at h
                    injection h with h3 h4
                    exact hb h3)]
                cases hlb : lookupChild cs b with
                | none =>
                    rw [hlb] at hup
                    rw [shapeAt_cons_none hup,
                      shapeAt_cons_none (show lookupChild (MCTSNode.mk w v u cs).child_nodes b = none from hlb)]
                | some n =>
                    rw [hlb] at hup
                    rw [shapeAt_cons_some hup,
                      shapeAt_cons_some (show lookupChild (MCTSNode.mk w v u cs).child_nodes b = some n from hlb)]

end ExpandLemmas

section SumLemmas

variable {α : Type} [DecidableEq α]

theorem visits_modifyAt_cons (f : MCTSNode α → MCTSNode α) (t : MCTSNode α)
    (a : α) (q : List α) : (modifyAt f t (a :: q)).visits = t.visits := by
  cases t; rfl

theorem wins_modifyAt_cons (f : MCTSNode α → MCTSNode α) (t : MCTSNode α)
    (a : α) (q : List α) : (modifyAt f t (a :: q)).wins = t.wins := by
  cases t; rfl

theorem expandUpd_visits (leaf : MCTSNode α) (chosen : α) (u' ua : List α) :
    (expandUpd leaf chosen u' ua).visits = leaf.visits := rfl

theorem expandUpd_wins (leaf : MCTSNode α) (chosen : α) (u' ua : List α) :
    (expandUpd leaf chosen u' ua).wins = leaf.wins := rfl

theorem sum_visits_map_upd_some (cs : List (α × MCTSNode α)) (a : α)
    (f : MCTSNode α → MCTSNode α) (c0 : MCTSNode α)
    (hnd : (cs.map Prod.fst).Nodup) (hlk : lookupChild cs a = some c0) :
    ((cs.map (updEntry a f)).map fun kc => kc.2.visits).sum + c0.visits
      = (cs.map fun kc => kc.2.visits).sum + (f c0).visits := by
  induction cs with
  | nil => simp at hlk
  | cons hd tl ih =>
      obtain ⟨k, c⟩ := hd
      by_cases hk : k = a
      · have hc0 : c = c0 := by
          rw [lookupChild_cons, if_pos hk] at hlk
          exact Option.some_injective _ hlk
        subst hc0
        have hnot : a ∉ tl.map Prod.fst := by
          rw [List.map_cons] at hnd
          rw [← hk]
          exact (List.nodup_cons.mp hnd).1
        rw [List.map_cons,
          show updEntry a f (k, c) = (k, f c) from by unfold updEntry; rw [if_pos hk],
          map_update_eq_of_not_mem f hnot]
        simp only [List.map_cons, List.sum_cons]
        omega
      · rw [List.map_cons,
          show updEntry a f (k, c) = (k, c) from by unfold updEntry; rw [if_neg hk]]
        rw [lookupChild_cons, if_neg hk] at hlk
        have htl : (tl.map Prod.fst).Nodup := by
          rw [List.map_cons] at hnd
          exact (List.nodup_cons.mp hnd).2
        have := ih htl hlk
        simp only [List.map_cons, List.sum_cons]
        omega

theorem sum_visits_map_upd_none (cs : List (α × MCTSNode α)) (a : α)
    (f : MCTSNode α → MCTSNode α) (hlk : lookupChild cs a = none) :
    cs.map (updEntry a f) = cs :=
  map_update_eq_of_not_mem f (lookupChild_eq_none.mp hlk)

/-- One backpropagation increases the sum of the direct children's visit
counters of a node with duplicate-free children keys by at most one (by
exactly one when the walked path enters a child, by zero when it stops at
the node itself). -/
theorem sumChildVisits_backpropagate_le (won : Bool) (t : MCTSNode α)
    (p : List α) (hnd : (t.child_nodes.map Prod.fst).Nodup) :
    sumChildVisits (backpropagate won t p) ≤ sumChildVisits t + 1 := by
  cases p with
  | nil =>
      rw [backpropagate_nil]
      unfold sumChildVisits
      rw [bump_child_nodes]
      omega
  | cons a q =>
      cases t with
      | mk w v u cs =>
          rw [backpropagate_cons]
          unfold sumChildVisits
          simp only [MCTSNode.child_nodes_mk] at hnd ⊢
          cases hlk : lookupChild cs a with
          | none => rw [sum_visits_map_upd_none cs a _ hlk]; omega
          | some c0 =>
              have := sum_visits_map_upd_some cs a
                (fun c => backpropagate won c q) c0 hnd hlk
              rw [visits_backpropagate] at this
              omega

/-- Grafting a fresh zero-visit child at a valid path does not change the
sum of the root's direct children's visit counters. -/
theorem sumChildVisits_expandModify (t leaf : MCTSNode α) (p : List α)
    (chosen : α) (u' ua : List α) (hleaf : getNode? t p = some leaf)
    (hfresh : chosen ∉ leaf.child_nodes.map Prod.fst)
    (hnd : (t.child_nodes.map Prod.fst).Nodup) :
    sumChildVisits (modifyAt (fun _ => expandUpd leaf chosen u' ua) t p)
      = sumChildVisits t := by
  cases p with
  | nil =>
      have ht : t = leaf := by simpa [getNode?] using hleaf
      subst ht
      rw [modifyAt_nil]
      unfold sumChildVisits
      rw [expandUpd_child_nodes, dictSet_of_not_mem _ hfresh]
      simp
  | cons a q =>
      cases t with
      | mk w v u cs =>
          rw [modifyAt_cons]
          unfold sumChildVisits
          simp only [MCTSNode.child_nodes_mk] at hnd ⊢
          have hstep : ∃ c, lookupChild cs a = some c ∧ getNode? c q = some leaf := by
            simp only [getNode?, MCTSNode.child_nodes_mk] at hleaf
            cases hlk : lookupChild cs a with
            | none => rw [hlk] at hleaf; exact absurd hleaf (by simp)
            | some c => exact ⟨c, rfl, by rw [hlk] at hleaf; exact hleaf⟩
          obtain ⟨c0, hlk, hgc⟩ := hstep
          have hvis : (modifyAt (fun _ => expandUpd leaf chosen u' ua) c0 q).visits
              = c0.visits := by
            cases q with
            | nil =>
                have hc0 : c0 = leaf := by simpa [getNode?] using hgc
                subst hc0
                rw [modifyAt_nil, expandUpd_visits]
            | cons b q2 => rw [visits_modifyAt_cons]
          have := sum_visits_map_upd_some cs a
            (fun c => modifyAt (fun _ => expandUpd leaf chosen u' ua) c q) c0 hnd hlk
          rw [hvis] at this
          omega

end SumLemmas

section ScanLemmas

variable {β : Type}

theorem vanillaScanAux_mem (score : β → Real) {c : β} :
    ∀ (cs : List β) (acc : Real × Option β),
    (vanillaScanAux score acc cs).2 = some c → acc.2 = some c ∨ c ∈ cs := by
  intro cs
  induction cs with
  | nil => intro acc h; exact Or.inl h
  | cons x rest ih =>
      intro acc h
      obtain ⟨b, bc⟩ := acc
      unfold vanillaScanAux at h
      by_cases hx : score x > b
      · rw [if_pos hx] at h
        rcases ih _ h with h1 | h1
        · have hxc : x = c := Option.some_injective _ h1
          exact Or.inr (by rw [← hxc]; exact List.mem_cons_self x rest)
        · exact Or.inr (List.mem_cons_of_mem x h1)
      · rw [if_neg hx] at h
        rcases ih _ h with h1 | h1
        · exact Or.inl h1
        · exact Or.inr (List.mem_cons_of_mem x h1)

theorem vanillaScan_mem (score : β → Real) {c : β} (cs : List β)
    (h : (vanillaScan score cs).2 = some c) : c ∈ cs := by
  rcases vanillaScanAux_mem score cs (0, none) h with h1 | h1
  · exact absurd h1 (by simp)
  · exact h1

theorem vanillaFinalAux_some_of_some (score : β → Real) :
    ∀ (cs : List β) (b : Real) (x : β),
    ∃ y, (vanillaFinalAux score (b, some x) cs).2 = some y := by
  intro cs
  induction cs with
  | nil => intro b x; exact ⟨x, rfl⟩
  | cons c rest ih =>
      intro b x
      unfold vanillaFinalAux
      by_cases hc : score c ≥ b
      · rw [if_pos hc]; exact ih _ _
      · rw [if_neg hc]; exact ih _ _

theorem vanillaFinalAux_mem (score : β → Real) {c : β} :
    ∀ (cs : List β) (acc : Real × Option β),
    (vanillaFinalAux score acc cs).2 = some c → acc.2 = some c ∨ c ∈ cs := by
  intro cs
  induction cs with
  | nil => intro acc h; exact Or.inl h
  | cons x rest ih =>
      intro acc h
      obtain ⟨b, bc⟩ := acc
      unfold vanillaFinalAux at h
      by_cases hx : score x ≥ b
      · rw [if_pos hx] at h
        rcases ih _ h with h1 | h1
        · have hxc : x = c := Option.some_injective _ h1
          exact Or.inr (by rw [← hxc]; exact List.mem_cons_self x rest)
        · exact Or.inr (List.mem_cons_of_mem x h1)
      · rw [if_neg hx] at h
        rcases ih _ h with h1 | h1
        · exact Or.inl h1
        · exact Or.inr (List.mem_cons_of_mem x h1)

/-- The final scan of mcts_vanilla.py always settles on some child when the
children list is non-empty and all scores are non-negative, and that child
is one of the scanned children. -/
theorem vanillaFinal_mem (score : β → Real) (cs : List β)
    (hpos : ∀ x ∈ cs, 0 ≤ score x) (hne : cs ≠ []) :
    ∃ y ∈ cs, (vanillaFinalAux score (0, none) cs).2 = some y := by
  cases cs with
  | nil => exact absurd rfl hne
  | cons c rest =>
      have hc : score c ≥ 0 := hpos c (List.mem_cons_self c rest)
      have h1 : vanillaFinalAux score (0, none) (c :: rest)
          = vanillaFinalAux score (score c, some c) rest := by
        show (if score c ≥ 0 then vanillaFinalAux score (score c, some c) rest
          else vanillaFinalAux score (0, none) rest) = _
        rw [if_pos hc]
      obtain ⟨y, hy⟩ := vanillaFinalAux_some_of_some score rest (score c) c
      refine ⟨y, ?_, by rw [h1]; exact hy⟩
      have := vanillaFinalAux_mem score rest (score c, some c) hy
      rcases this with h2 | h2
      · have hcy : c = y := Option.some_injective _ h2
        rw [← hcy]
        exact List.mem_cons_self c rest
      · exact List.mem_cons_of_mem c h2

theorem e1ScanAux_subset (score : β → Real) {x : β} :
    ∀ (cs : List β) (b : Real) (bs : List β),
    x ∈ (e1ScanAux score (b, bs) cs).2 → x ∈ bs ∨ x ∈ cs := by
  intro cs
  induction cs with
  | nil => intro b bs h; exact Or.inl h
  | cons c rest ih =>
      intro b bs h
      unfold e1ScanAux at h
      by_cases h1 : score c = b
      · rw [if_pos h1] at h
        rcases ih _ _ h with h2 | h2
        · rcases List.mem_append.mp h2 with h3 | h3
          · exact Or.inl h3
          · exact Or.inr (List.mem_cons.mpr (Or.inl (List.mem_singleton.mp h3)))
        · exact Or.inr (List.mem_cons_of_mem c h2)
      · rw [if_neg h1] at h
        by_cases h2 : score c > b
        · rw [if_pos h2] at h
          rcases ih _ _ h with h3 | h3
          · exact Or.inr (List.mem_cons.mpr (Or.inl (List.mem_singleton.mp h3)))
          · exact Or.inr (List.mem_cons_of_mem c h3)
        · rw [if_neg h2] at h
          rcases ih _ _ h with h3 | h3
          · exact Or.inl h3
          · exact Or.inr (List.mem_cons_of_mem c h3)

/-- Invariant characterisation of the candidate-list scan: starting from a
running best b with candidate list bs holding exactly the entries of score
b, the scan returns the maximum of b and all scores, with the candidate
list holding exactly the already-collected and newly-scanned entries that
attain it. -/
theorem e1ScanAux_char (score : β → Real) :
    ∀ (cs : List β) (b : Real) (bs : List β),
    0 ≤ b →
    (∀ x ∈ bs, score x = b) →
    (∀ x ∈ cs, 0 ≤ score x) →
    b ≤ (e1ScanAux score (b, bs) cs).1
    ∧ (∀ x ∈ (e1ScanAux score (b, bs) cs).2, score x = (e1ScanAux score (b, bs) cs).1)
    ∧ (∀ x ∈ cs, score x ≤ (e1ScanAux score (b, bs) cs).1)
    ∧ (∀ x ∈ bs, score x = (e1ScanAux score (b, bs) cs).1 → x ∈ (e1ScanAux score (b, bs) cs).2)
    ∧ (∀ x ∈ cs, score x = (e1ScanAux score (b, bs) cs).1 → x ∈ (e1ScanAux score (b, bs) cs).2)
    ∧ (bs ≠ [] → (e1ScanAux score (b, bs) cs).2 ≠ [])
    ∧ (bs = [] → b = 0 → cs ≠ [] → (e1ScanAux score (b, bs) cs).2 ≠ []) := by
  intro cs
  induction cs with
  | nil =>
      intro b bs hb hbs hcs
      refine ⟨le_refl b, hbs, by simp, fun x hx _ => hx, by simp, fun h => h, ?_⟩
      intro _ _ h
      exact absurd rfl h
  | cons c rest ih =>
      intro b bs hb hbs hcs
      have hcrest : ∀ x ∈ rest, 0 ≤ score x :=
        fun x hx => hcs x (List.mem_cons_of_mem c hx)
      have hc0 : 0 ≤ score c := hcs c (List.mem_cons_self c rest)
      unfold e1ScanAux
      by_cases h1 : score c = b
      · rw [if_pos h1]
        have hbs2 : ∀ x ∈ bs ++ [c], score x = b := by
          intro x hx
          rcases List.mem_append.mp hx with h | h
          · exact hbs x h
          · rw [List.mem_singleton.mp h]; exact h1
        obtain ⟨g1, g2, g3, g4, g5, g6, g7⟩ := ih b (bs ++ [c]) hb hbs2 hcrest
        refine ⟨g1, g2, ?_, ?_, ?_, ?_, ?_⟩
        · intro x hx
          rcases List.mem_cons.mp hx with h | h
          · rw [h, h1]; exact g1
          · exact g3 x h
        · intro x hx hs
          exact g4 x (List.mem_append.mpr (Or.inl hx)) hs
        · intro x hx hs
          rcases List.mem_cons.mp hx with h | h
          · exact g4 x (List.mem_append.mpr (Or.inr (by rw [h]; exact List.mem_singleton_self c))) hs
          · exact g5 x h hs
        · intro _; exact g6 (by simp)
        · intro _ _ _; exact g6 (by simp)
      · rw [if_neg h1]
        by_cases h2 : score c > b
        · rw [if_pos h2]
          have hbs2 : ∀ x ∈ [c], score x = score c := by
            intro x hx; rw [List.mem_singleton.mp hx]
          obtain ⟨g1, g2, g3, g4, g5, g6, g7⟩ := ih (score c) [c] hc0 hbs2 hcrest
          refine ⟨le_trans (le_of_lt h2) g1, g2, ?_, ?_, ?_, ?_, ?_⟩
          · intro x hx
            rcases List.mem_cons.mp hx with h | h
            · rw [h]; exact g1
            · exact g3 x h
          · intro x hx hs
            have : score x = b := hbs x hx
            have hlt : score x < score c := by rw [this]; exact h2
            have : score c ≤ (e1ScanAux score (score c, [c]) rest).1 := g1
            exact absurd hs (by
              intro heq
              have := lt_of_lt_of_le hlt this
              rw [heq] at this
              exact lt_irrefl _ this)
          · intro x hx hs
            rcases List.mem_cons.mp hx with h | h
            · exact g4 x (by rw [h]; exact List.mem_singleton_self c) hs
            · exact g5 x h hs
          · intro _; exact g6 (by simp)
          · intro _ _ _; exact g6 (by simp)
        · rw [if_neg h2]
          have hclt : score c < b := lt_of_le_of_ne (le_of_not_lt h2) h1
          obtain ⟨g1, g2, g3, g4, g5, g6, g7⟩ := ih b bs hb hbs hcrest
          refine ⟨g1, g2, ?_, g4, ?_, g6, ?_⟩
          · intro x hx
            rcases List.mem_cons.mp hx with h | h
            · rw [h]; exact le_trans (le_of_lt hclt) g1
            · exact g3 x h
          · intro x hx hs
            rcases List.mem_cons.mp hx with h | h
            · exact absurd hs (by
                rw [h]
                intro heq
                have := lt_of_lt_of_le hclt g1
                rw [heq] at this
                exact lt_irrefl _ this)
            · exact g5 x h hs
          · intro hbs0 hb0 _
            rw [hb0] at hclt
            exact absurd hc0 (not_le.mpr hclt)

/-- The candidate-list scan over a non-empty list of non-negatively scored
entries returns a non-empty candidate list consisting of exactly the
entries attaining the maximal score. -/
theorem e1Scan_char (score : β → Real) (cs : List β)
    (hpos : ∀ x ∈ cs, 0 ≤ score x) (hne : cs ≠ []) :
    (∀ x ∈ (e1Scan score cs).2, score x = (e1Scan score cs).1)
    ∧ (∀ x ∈ cs, score x ≤ (e1Scan score cs).1)
    ∧ (∀ x ∈ cs, score x = (e1Scan score cs).1 → x ∈ (e1Scan score cs).2)
    ∧ (∀ x ∈ (e1Scan score cs).2, x ∈ cs)
    ∧ (e1Scan score cs).2 ≠ [] := by
  obtain ⟨g1, g2, g3, g4, g5, g6, g7⟩ :=
    e1ScanAux_char score cs 0 [] (le_refl 0) (by simp) hpos
  refine ⟨g2, g3, g5, ?_, g7 rfl rfl hne⟩
  intro x hx
  rcases e1ScanAux_subset score cs 0 [] hx with h | h
  · exact absurd h (by simp)
  · exact h

end ScanLemmas

section PathLemmas

variable {σ α : Type} [DecidableEq α]

theorem getNode?_cons_some {t c : MCTSNode α} {a : α}
    (h : lookupChild t.child_nodes a = some c) (p : List α) :
    getNode? t (a :: p) = getNode? c p := by
  simp only [getNode?, h]

theorem getNode?_cons_none {t : MCTSNode α} {a : α}
    (h : lookupChild t.child_nodes a = none) (p : List α) :
    getNode? t (a :: p) = none := by
  simp only [getNode?, h]

theorem getNode?_append (t : MCTSNode α) :
    ∀ (p q : List α), getNode? t (p ++ q)
      = (getNode? t p).bind fun n => getNode? n q := by
  intro p
  induction p generalizing t with
  | nil => intro q; simp [getNode?]
  | cons a p2 ih =>
      intro q
      rw [List.cons_append]
      cases hlk : lookupChild t.child_nodes a with
      | none => rw [getNode?_cons_none hlk, getNode?_cons_none hlk]; rfl
      | some c => rw [getNode?_cons_some hlk, getNode?_cons_some hlk, ih]

theorem lookupChild_of_mem_nodup {cs : List (α × MCTSNode α)} {a : α}
    {c : MCTSNode α} (hmem : (a, c) ∈ cs) (hnd : (cs.map Prod.fst).Nodup) :
    lookupChild cs a = some c := by
  induction cs with
  | nil => simp at hmem
  | cons hd tl ih =>
      obtain ⟨k, v⟩ := hd
      rw [List.map_cons] at hnd
      rcases List.mem_cons.mp hmem with h | h
      · injection h with h1 h2
        subst h1; subst h2
        rw [lookupChild_cons, if_pos rfl]
      · have hka : k ≠ a := by
          intro hk
          subst hk
          exact (List.nodup_cons.mp hnd).1
            (List.mem_map.mpr ⟨(k, c), h, rfl⟩)
        rw [lookupChild_cons, if_neg hka]
        exact ih h (List.nodup_cons.mp hnd).2

theorem expand_leaf_eq (g : Game σ α) (t : MCTSNode α) (s : σ) (k : Nat)
    {chosen : α}
    (h : t.untried_actions[k % t.untried_actions.length]? = some chosen) :
    Exp1.expand_leaf g t s k
      = some (chosen, expandUpd t chosen (t.untried_actions.erase chosen)
          (g.legal_actions (g.next_state s chosen))) := by
  unfold Exp1.expand_leaf
  rw [h]
  rfl

theorem vanilla_expand_leaf_eq (g : Game σ α) (t : MCTSNode α) (s : σ) (k : Nat)
    {chosen : α}
    (h : t.untried_actions[k % t.untried_actions.length]? = some chosen) :
    Vanilla.expand_leaf g t s k
      = some (chosen, expandUpd t chosen (t.untried_actions.erase chosen)
          (g.legal_actions (g.next_state s chosen))) := by
  unfold Vanilla.expand_leaf
  rw [h]
  rfl

theorem treeInv_root (g : Game σ α) (s0 : σ)
    (hnd : ∀ s, (g.legal_actions s).Nodup) :
    TreeInv (MCTSNode.mk 0 0 (g.legal_actions s0) [] : MCTSNode α) := by
  intro p n h
  cases p with
  | nil =>
      have hn : n = MCTSNode.mk 0 0 (g.legal_actions s0) [] := by
        simpa [getNode?] using h.symm
      subst hn
      refine ⟨le_refl 0, hnd s0, by simp, by simp, fun hne => absurd rfl hne⟩
  | cons a q =>
      rw [getNode?_cons_none (by simp [lookupChild]) q] at h
      exact absurd h (by simp)

end PathLemmas

/-! Unfolding equations for the two selection walks. -/

namespace Exp1

variable {σ α : Type} [DecidableEq α]

theorem traverse_stop_ended (g : Game σ α) (identity : Nat) (rng : Nat → Nat)
    (fuel c : Nat) (t : MCTSNode α) (s : σ) (he : g.is_ended s = true) :
    traverse_nodes g identity rng (fuel + 1) c t s = some ([], t, s, c) := by
  show (if g.is_ended s then some ([], t, s, c) else _) = _
  rw [if_pos he]

theorem traverse_stop_untried (g : Game σ α) (identity : Nat) (rng : Nat → Nat)
    (fuel c : Nat) (t : MCTSNode α) (s : σ) (he : g.is_ended s = false)
    (hu : t.untried_actions ≠ []) :
    traverse_nodes g identity rng (fuel + 1) c t s = some ([], t, s, c) := by
  show (if g.is_ended s then some ([], t, s, c)
      else if t.untried_actions ≠ [] then some ([], t, s, c) else _) = _
  rw [if_neg (by rw [he]; exact Bool.false_ne_true), if_pos hu]

theorem traverse_descend (g : Game σ α) (identity : Nat) (rng : Nat → Nat)
    (fuel c : Nat) (t : MCTSNode α) (s : σ) (he : g.is_ended s = false)
    (hu : t.untried_actions = []) {a : α} {ch : MCTSNode α}
    (hget : (e1Scan (stepScore g identity t s) t.child_nodes).2[rng c %
        (e1Scan (stepScore g identity t s) t.child_nodes).2.length]? = some (a, ch)) :
    traverse_nodes g identity rng (fuel + 1) c t s
      = (traverse_nodes g identity rng fuel (c + 1) ch (g.next_state s a)).map
          fun r => (a :: r.1, r.2) := by
  show (if g.is_ended s then some ([], t, s, c)
      else if t.untried_actions ≠ [] then some ([], t, s, c)
      else
        let best := (e1Scan (stepScore g identity t s) t.child_nodes).2
        match best[rng c % best.length]? with
        | none => none
        | some (a, ch) =>
            (traverse_nodes g identity rng fuel (c + 1) ch (g.next_state s a)).map
              fun r : List α × MCTSNode α × σ × Nat => (a :: r.1, r.2)) = _
  rw [if_neg (by rw [he]; exact Bool.false_ne_true), if_neg (by rw [hu]; simp)]
  show (match (e1Scan (stepScore g identity t s) t.child_nodes).2[rng c %
      (e1Scan (stepScore g identity t s) t.child_nodes).2.length]? with
    | none => none
    | some (a, ch) =>
        (traverse_nodes g identity rng fuel (c + 1) ch (g.next_state s a)).map
          fun r : List α × MCTSNode α × σ × Nat => (a :: r.1, r.2)) = _
  rw [hget]

theorem traverse_descend_none (g : Game σ α) (identity : Nat) (rng : Nat → Nat)
    (fuel c : Nat) (t : MCTSNode α) (s : σ) (he : g.is_ended s = false)
    (hu : t.untried_actions = [])
    (hget : (e1Scan (stepScore g identity t s) t.child_nodes).2[rng c %
        (e1Scan (stepScore g identity t s) t.child_nodes).2.length]? = none) :
    traverse_nodes g identity rng (fuel + 1) c t s = none := by
  show (if g.is_ended s then some ([], t, s, c)
      else if t.untried_actions ≠ [] then some ([], t, s, c)
      else
        let best := (e1Scan (stepScore g identity t s) t.child_nodes).2
        match best[rng c % best.length]? with
        | none => none
        | some (a, ch) =>
            (traverse_nodes g identity rng fuel (c + 1) ch (g.next_state s a)).map
              fun r : List α × MCTSNode α × σ × Nat => (a :: r.1, r.2)) = _
  rw [if_neg (by rw [he]; exact Bool.false_ne_true), if_neg (by rw [hu]; simp)]
  show (match (e1Scan (stepScore g identity t s) t.child_nodes).2[rng c %
      (e1Scan (stepScore g identity t s) t.child_nodes).2.length]? with
    | none => none
    | some (a, ch) =>
        (traverse_nodes g identity rng fuel (c + 1) ch (g.next_state s a)).map
          fun r : List α × MCTSNode α × σ × Nat => (a :: r.1, r.2)) = _
  rw [hget]

end Exp1

namespace Vanilla

variable {σ α : Type} [DecidableEq α]

theorem walk_stop_untried (g : Game σ α) (identity : Nat)
    (fuel : Nat) (t : MCTSNode α) (s : σ) (hu : t.untried_actions ≠ []) :
    traverse_nodes g identity (fuel + 1) t s = some ([], t, s) := by
  show (if t.untried_actions ≠ [] then some ([], t, s) else _) = _
  rw [if_pos hu]

theorem walk_stop_ended (g : Game σ α) (identity : Nat)
    (fuel : Nat) (t : MCTSNode α) (s : σ) (hu : t.untried_actions = [])
    (he : g.is_ended s = true) :
    traverse_nodes g identity (fuel + 1) t s = some ([], t, s) := by
  show (if t.untried_actions ≠ [] then some ([], t, s)
      else if g.is_ended s then some ([], t, s) else _) = _
  rw [if_neg (by rw [hu]; simp), if_pos he]

theorem walk_descend (g : Game σ α) (identity : Nat)
    (fuel : Nat) (t : MCTSNode α) (s : σ) (hu : t.untried_actions = [])
    (he : g.is_ended s = false) {a : α} {ch : MCTSNode α}
    (hscan : (vanillaScan (stepScore g identity t s) t.child_nodes).2 = some (a, ch)) :
    traverse_nodes g identity (fuel + 1) t s
      = (traverse_nodes g identity fuel ch (g.next_state s a)).map
          fun r : List α × MCTSNode α × σ => (a :: r.1, r.2) := by
  show (if t.untried_actions ≠ [] then some ([], t, s)
      else if g.is_ended s then some ([], t, s)
      else
        match (vanillaScan (stepScore g identity t s) t.child_nodes).2 with
        | none => none
        | some (a, ch) =>
            (traverse_nodes g identity fuel ch (g.next_state s a)).map
              fun r : List α × MCTSNode α × σ => (a :: r.1, r.2)) = _
  rw [if_neg (by rw [hu]; simp), if_neg (by rw [he]; exact Bool.false_ne_true), hscan]

theorem walk_descend_none (g : Game σ α) (identity : Nat)
    (fuel : Nat) (t : MCTSNode α) (s : σ) (hu : t.untried_actions = [])
    (he : g.is_ended s = false)
    (hscan : (vanillaScan (stepScore g identity t s) t.child_nodes).2 = none) :
    traverse_nodes g identity (fuel + 1) t s = none := by
  show (if t.untried_actions ≠ [] then some ([], t, s)
      else if g.is_ended s then some ([], t, s)
      else
        match (vanillaScan (stepScore g identity t s) t.child_nodes).2 with
        | none => none
        | some (a, ch) =>
            (traverse_nodes g identity fuel ch (g.next_state s a)).map
              fun r : List α × MCTSNode α × σ => (a :: r.1, r.2)) = _
  rw [if_neg (by rw [hu]; simp), if_neg (by rw [he]; exact Bool.false_ne_true), hscan]

end Vanilla

section TraverseValid

variable {σ α : Type} [DecidableEq α]

/-- Selection in mcts_vanilla400.py returns an address realised in the
tree whose node is the returned leaf, and the walk stopped either at a
terminal state or at a node with untried actions. -/
theorem exp1_traverse_valid (g : Game σ α) (identity : Nat) (rng : Nat → Nat) :
    ∀ (fuel c : Nat) (t : MCTSNode α) (s : σ) (p : List α)
      (leaf : MCTSNode α) (ns : σ) (c' : Nat),
    (∀ p0 n, getNode? t p0 = some n → (n.child_nodes.map Prod.fst).Nodup) →
    Exp1.traverse_nodes g identity rng fuel c t s = some (p, leaf, ns, c') →
    getNode? t p = some leaf
    ∧ (g.is_ended ns = true ∨ leaf.untried_actions ≠ []) := by
  intro fuel
  induction fuel with
  | zero =>
      intro c t s p leaf ns c' _ h
      exact absurd h (by simp [Exp1.traverse_nodes])
  | succ fuel ih =>
      intro c t s p leaf ns c' hkeys h
      by_cases he : g.is_ended s
      · rw [Exp1.traverse_stop_ended g identity rng fuel c t s he] at h
        injection h with h1
        injection h1 with hp h2
        injection h2 with hleaf h3
        injection h3 with hns hc
        subst hp; subst hleaf; subst hns
        exact ⟨rfl, Or.inl he⟩
      · have he' : g.is_ended s = false := by
          cases hb : g.is_ended s
          · rfl
          · exact absurd hb he
        by_cases hu : t.untried_actions = []
        · cases hget : (e1Scan (Exp1.stepScore g identity t s) t.child_nodes).2[rng c %
              (e1Scan (Exp1.stepScore g identity t s) t.child_nodes).2.length]? with
          | none =>
              rw [Exp1.traverse_descend_none g identity rng fuel c t s he' hu hget] at h
              exact absurd h (by simp)
          | some ach =>
              obtain ⟨a, ch⟩ := ach
              rw [Exp1.traverse_descend g identity rng fuel c t s he' hu hget] at h
              cases hrec : Exp1.traverse_nodes g identity rng fuel (c + 1) ch
                  (g.next_state s a) with
              | none => rw [hrec] at h; exact absurd h (by simp)
              | some r =>
                  rw [hrec] at h
                  simp only [Option.map_some'] at h
                  obtain ⟨p2, leaf2, ns2, c2⟩ := r
                  injection h with h1
                  injection h1 with hp h2
                  injection h2 with hleaf h3
                  injection h3 with hns hc
                  have hmem : (a, ch) ∈ t.child_nodes := by
                    have h2m := List.getElem?_mem hget
                    rcases e1ScanAux_subset _ _ _ _ h2m with h3m | h3m
                    · exact absurd h3m (by simp)
                    · exact h3m
                  have hlk : lookupChild t.child_nodes a = some ch :=
                    lookupChild_of_mem_nodup hmem (hkeys [] t (by simp [getNode?]))
                  have hkeys2 : ∀ p0 n, getNode? ch p0 = some n →
                      (n.child_nodes.map Prod.fst).Nodup := by
                    intro p0 n hg
                    exact hkeys (a :: p0) n (by rw [getNode?_cons_some hlk]; exact hg)
                  obtain ⟨hg, hstop⟩ := ih (c + 1) ch (g.next_state s a) p2 leaf2 ns2 c2
                    hkeys2 hrec
                  subst hp; subst hleaf; subst hns
                  exact ⟨by rw [getNode?_cons_some hlk]; exact hg, hstop⟩
        · rw [Exp1.traverse_stop_untried g identity rng fuel c t s he' hu] at h
          injection h with h1
          injection h1 with hp h2
          injection h2 with hleaf h3
          injection h3 with hns hc
          subst hp; subst hleaf; subst hns
          exact ⟨rfl, Or.inr hu⟩

/-- Selection in mcts_vanilla.py returns an address realised in the tree
whose node is the returned leaf, and the walk stopped either at a node with
untried actions or at a terminal state. -/
theorem vanilla_traverse_valid (g : Game σ α) (identity : Nat) :
    ∀ (fuel : Nat) (t : MCTSNode α) (s : σ) (p : List α)
      (leaf : MCTSNode α) (ns : σ),
    (∀ p0 n, getNode? t p0 = some n → (n.child_nodes.map Prod.fst).Nodup) →
    Vanilla.traverse_nodes g identity fuel t s = some (p, leaf, ns) →
    getNode? t p = some leaf
    ∧ (leaf.untried_actions ≠ [] ∨ g.is_ended ns = true) := by
  intro fuel
  induction fuel with
  | zero =>
      intro t s p leaf ns _ h
      exact absurd h (by simp [Vanilla.traverse_nodes])
  | succ fuel ih =>
      intro t s p leaf ns hkeys h
      by_cases hu : t.untried_actions = []
      · by_cases he : g.is_ended s
        · rw [Vanilla.walk_stop_ended g identity fuel t s hu he] at h
          injection h with h1
          injection h1 with hp h2
          injection h2 with hleaf hns
          subst hp; subst hleaf; subst hns
          exact ⟨rfl, Or.inr he⟩
        · have he' : g.is_ended s = false := by
            cases hb : g.is_ended s
            · rfl
            · exact absurd hb he
          cases hscan : (vanillaScan (Vanilla.stepScore g identity t s) t.child_nodes).2 with
          | none =>
              rw [Vanilla.walk_descend_none g identity fuel t s hu he' hscan] at h
              exact absurd h (by simp)
          | some ach =>
              obtain ⟨a, ch⟩ := ach
              rw [Vanilla.walk_descend g identity fuel t s hu he' hscan] at h
              cases hrec : Vanilla.traverse_nodes g identity fuel ch (g.next_state s a) with
              | none => rw [hrec] at h; exact absurd h (by simp)
              | some r =>
                  rw [hrec] at h
                  simp only [Option.map_some'] at h
                  obtain ⟨p2, leaf2, ns2⟩ := r
                  injection h with h1
                  injection h1 with hp h2
                  injection h2 with hleaf hns
                  have hmem : (a, ch) ∈ t.child_nodes :=
                    vanillaScan_mem _ t.child_nodes hscan
                  have hlk : lookupChild t.child_nodes a = some ch :=
                    lookupChild_of_mem_nodup hmem (hkeys [] t (by simp [getNode?]))
                  have hkeys2 : ∀ p0 n, getNode? ch p0 = some n →
                      (n.child_nodes.map Prod.fst).Nodup := by
                    intro p0 n hg
                    exact hkeys (a :: p0) n (by rw [getNode?_cons_some hlk]; exact hg)
                  obtain ⟨hg, hstop⟩ := ih ch (g.next_state s a) p2 leaf2 ns2 hkeys2 hrec
                  subst hp; subst hleaf; subst hns
                  exact ⟨by rw [getNode?_cons_some hlk]; exact hg, hstop⟩
      · rw [Vanilla.walk_stop_untried g identity fuel t s hu] at h
        injection h with h1
        injection h1 with hp h2
        injection h2 with hleaf hns
        subst hp; subst hleaf; subst hns
        exact ⟨rfl, Or.inl hu⟩

end TraverseValid

section InvPreservation

variable {σ α : Type} [DecidableEq α]

theorem stats_of_getNode? {t : MCTSNode α} {p : List α} {n : MCTSNode α}
    (h : getNode? t p = some n) : statsAt t p = some (n.wins, n.visits) := by
  rw [statsAt, h, Option.map_some']

theorem shape_of_getNode? {t : MCTSNode α} {p : List α} {n : MCTSNode α}
    (h : getNode? t p = some n) :
    shapeAt t p = some (n.untried_actions, n.child_nodes.map Prod.fst) := by
  rw [shapeAt, h, Option.map_some']

theorem getNode?_of_statsAt {t : MCTSNode α} {p : List α} {wv : Nat × Nat}
    (h : statsAt t p = some wv) :
    ∃ n, getNode? t p = some n ∧ n.wins = wv.1 ∧ n.visits = wv.2 := by
  rcases Option.map_eq_some'.mp h with ⟨n, hn, hwv⟩
  exact ⟨n, hn, by rw [← hwv], by rw [← hwv]⟩

/-- Backpropagation preserves the tree invariant. -/
theorem treeInv_backpropagate {t : MCTSNode α} (won : Bool) (p : List α)
    (hInv : TreeInv t) : TreeInv (backpropagate won t p) := by
  intro p0 n' hg'
  have hstats' := stats_of_getNode? hg'
  have hshape' := shape_of_getNode? hg'
  rw [statsAt_backpropagate] at hstats'
  rw [shapeAt_backpropagate] at hshape'
  by_cases hpre : p0 <+: p
  · rw [if_pos hpre] at hstats'
    rcases Option.map_eq_some'.mp hstats' with ⟨wv, hwv, hbump⟩
    rcases getNode?_of_statsAt hwv with ⟨n, hn, hw, hv⟩
    obtain ⟨i1, i2, i3, i4, i5⟩ := hInv p0 n hn
    have h1 : (n.untried_actions, n.child_nodes.map Prod.fst)
        = (n'.untried_actions, n'.child_nodes.map Prod.fst) := by
      have h2 := (shape_of_getNode? hn).symm.trans hshape'
      injection h2
    rw [Prod.mk.injEq] at h1
    rw [Prod.mk.injEq] at hbump
    obtain ⟨h1u, h1k⟩ := h1
    obtain ⟨hbw, hbv⟩ := hbump
    refine ⟨?_, h1u ▸ i2, h1k ▸ i3, ?_, ?_⟩
    · rw [← hbw, ← hbv]
      have hle : wv.1 ≤ wv.2 := by rw [← hw, ← hv]; exact i1
      split <;> omega
    · intro a ha
      rw [← h1k]
      exact i4 a (h1u ▸ ha)
    · intro _
      rw [← hbv]
      omega
  · rw [if_neg hpre] at hstats'
    rcases getNode?_of_statsAt hstats' with ⟨n, hn, hw, hv⟩
    obtain ⟨i1, i2, i3, i4, i5⟩ := hInv p0 n hn
    have h1 : (n.untried_actions, n.child_nodes.map Prod.fst)
        = (n'.untried_actions, n'.child_nodes.map Prod.fst) := by
      have h2 := (shape_of_getNode? hn).symm.trans hshape'
      injection h2
    rw [Prod.mk.injEq] at h1
    obtain ⟨h1u, h1k⟩ := h1
    refine ⟨?_, h1u ▸ i2, h1k ▸ i3, ?_, ?_⟩
    · simp only at hw hv
      rw [← hw, ← hv]; exact i1
    · intro a ha
      rw [← h1k]
      exact i4 a (h1u ▸ ha)
    · intro hne
      simp only at hv
      rw [← hv]
      exact i5 hne

/-- Backpropagation only ever increases statistics, pointwise on realised
addresses. -/
theorem stats_mono_backpropagate {t : MCTSNode α} (won : Bool) (p : List α)
    {p0 : List α} {wv : Nat × Nat} (h : statsAt t p0 = some wv) :
    ∃ wv', statsAt (backpropagate won t p) p0 = some wv'
      ∧ wv.1 ≤ wv'.1 ∧ wv.2 ≤ wv'.2 := by
  rw [statsAt_backpropagate]
  by_cases hpre : p0 <+: p
  · rw [if_pos hpre, h, Option.map_some']
    exact ⟨_, rfl, Nat.le_add_right _ _, Nat.le_add_right _ _⟩
  · rw [if_neg hpre, h]
    exact ⟨wv, rfl, le_refl _, le_refl _⟩

/-- Every node on the walked chain has at least one visit right after a
backpropagation. -/
theorem visits_pos_backpropagate {t : MCTSNode α} (won : Bool) {p p0 : List α}
    (hpre : p0 <+: p) {n' : MCTSNode α}
    (hg' : getNode? (backpropagate won t p) p0 = some n') : 1 ≤ n'.visits := by
  have hstats' := stats_of_getNode? hg'
  rw [statsAt_backpropagate, if_pos hpre] at hstats'
  rcases Option.map_eq_some'.mp hstats' with ⟨wv, hwv, hbump⟩
  rw [Prod.mk.injEq] at hbump
  obtain ⟨hbw, hbv⟩ := hbump
  omega

theorem visits_expandModify {t leaf : MCTSNode α} {p : List α}
    (chosen : α) (u' ua : List α) (hleaf : getNode? t p = some leaf) :
    (modifyAt (fun _ => expandUpd leaf chosen u' ua) t p).visits = t.visits := by
  cases p with
  | nil =>
      have ht : t = leaf := by simpa [getNode?] using hleaf
      rw [modifyAt_nil, expandUpd_visits, ht]
  | cons a q => rw [visits_modifyAt_cons]

theorem wins_expandModify {t leaf : MCTSNode α} {p : List α}
    (chosen : α) (u' ua : List α) (hleaf : getNode? t p = some leaf) :
    (modifyAt (fun _ => expandUpd leaf chosen u' ua) t p).wins = t.wins := by
  cases p with
  | nil =>
      have ht : t = leaf := by simpa [getNode?] using hleaf
      rw [modifyAt_nil, expandUpd_wins, ht]
  | cons a q => rw [wins_modifyAt_cons]

theorem statsAt_fresh_none {t leaf : MCTSNode α} {p : List α} {chosen : α}
    (hleaf : getNode? t p = some leaf)
    (hfresh : chosen ∉ leaf.child_nodes.map Prod.fst) :
    statsAt t (p ++ [chosen]) = none := by
  unfold statsAt
  rw [getNode?_append, hleaf,
    show (some leaf).bind (fun n => getNode? n [chosen]) = getNode? leaf [chosen] from rfl,
    getNode?_cons_none (lookupChild_eq_none.mpr hfresh) []]
  rfl

/-- The tree invariant survives one expansion followed by the
backpropagation from the new child. -/
theorem treeInv_expand_backprop {t leaf : MCTSNode α} {p : List α}
    {chosen : α} (won : Bool) (ua : List α)
    (hleaf : getNode? t p = some leaf) (hInv : TreeInv t)
    (hmem : chosen ∈ leaf.untried_actions) (hua : ua.Nodup) :
    TreeInv (backpropagate won
      (modifyAt (fun _ =>
        expandUpd leaf chosen (leaf.untried_actions.erase chosen) ua) t p)
      (p ++ [chosen])) := by
  obtain ⟨j1, j2, j3, j4, j5⟩ := hInv p leaf hleaf
  have hfresh : chosen ∉ leaf.child_nodes.map Prod.fst := j4 chosen hmem
  intro p0 n' hg'
  have hstats' := stats_of_getNode? hg'
  have hshape' := shape_of_getNode? hg'
  rw [statsAt_backpropagate,
    statsAt_expand chosen _ ua p p0 t leaf hleaf hfresh] at hstats'
  rw [shapeAt_backpropagate,
    shapeAt_expand chosen _ ua p p0 t leaf hleaf hfresh] at hshape'
  by_cases hA : p0 = p ++ [chosen]
  · rw [if_pos hA, if_pos (by rw [hA]), Option.map_some'] at hstats'
    rw [if_neg (by rw [hA]; simp), if_pos hA] at hshape'
    injection hstats' with hstats2
    injection hshape' with hshape2
    rw [Prod.mk.injEq] at hstats2 hshape2
    obtain ⟨hw, hv⟩ := hstats2
    obtain ⟨hu, hk⟩ := hshape2
    refine ⟨?_, ?_, ?_, ?_, ?_⟩
    · rw [← hw, ← hv]; split <;> omega
    · rw [← hu]; exact hua
    · rw [← hk]; exact List.nodup_nil
    · intro a ha
      rw [← hk]
      simp
    · intro _; omega
  · rw [if_neg hA] at hstats'
    by_cases hB : p0 = p
    · rw [if_pos hB] at hshape'
      rw [if_pos (by rw [hB]; exact List.prefix_append p [chosen]), hB,
        stats_of_getNode? hleaf, Option.map_some'] at hstats'
      injection hstats' with hstats2
      injection hshape' with hshape2
      rw [Prod.mk.injEq] at hstats2 hshape2
      obtain ⟨hw, hv⟩ := hstats2
      obtain ⟨hu, hk⟩ := hshape2
      refine ⟨?_, ?_, ?_, ?_, ?_⟩
      · rw [← hw, ← hv]; split <;> omega
      · rw [← hu]; exact j2.erase chosen
      · rw [← hk]
        rw [List.nodup_append]
        exact ⟨j3, List.nodup_singleton chosen, by
          intro a ha hb
          rw [List.mem_singleton.mp hb] at ha
          exact hfresh ha⟩
      · intro a ha
        rw [← hk]
        rw [← hu] at ha
        have h2 := (List.Nodup.mem_erase_iff j2).mp ha
        intro hcon
        rcases List.mem_append.mp hcon with h3 | h3
        · exact j4 a h2.2 h3
        · exact h2.1 (List.mem_singleton.mp h3)
      · intro _; rw [← hv]; omega
    · rw [if_neg hB, if_neg hA] at hshape'
      by_cases hpre : p0 <+: p ++ [chosen]
      · rw [if_pos hpre, Option.map_eq_some'] at hstats'
        obtain ⟨wv, hwv, hbump⟩ := hstats'
        rcases getNode?_of_statsAt hwv with ⟨n, hn, hw, hv⟩
        obtain ⟨i1, i2, i3, i4, i5⟩ := hInv p0 n hn
        have h1 : (n.untried_actions, n.child_nodes.map Prod.fst)
            = (n'.untried_actions, n'.child_nodes.map Prod.fst) := by
          have h2 := (shape_of_getNode? hn).symm.trans hshape'
          injection h2
        rw [Prod.mk.injEq] at h1 hbump
        obtain ⟨h1u, h1k⟩ := h1
        obtain ⟨hbw, hbv⟩ := hbump
        refine ⟨?_, h1u ▸ i2, h1k ▸ i3, ?_, ?_⟩
        · rw [← hbw, ← hbv]
          have hle : wv.1 ≤ wv.2 := by rw [← hw, ← hv]; exact i1
          split <;> omega
        · intro a ha
          rw [← h1k]
          exact i4 a (h1u ▸ ha)
        · intro _; rw [← hbv]; omega
      · rw [if_neg hpre] at hstats'
        rcases getNode?_of_statsAt hstats' with ⟨n, hn, hw, hv⟩
        obtain ⟨i1, i2, i3, i4, i5⟩ := hInv p0 n hn
        have h1 : (n.untried_actions, n.child_nodes.map Prod.fst)
            = (n'.untried_actions, n'.child_nodes.map Prod.fst) := by
          have h2 := (shape_of_getNode? hn).symm.trans hshape'
          injection h2
        rw [Prod.mk.injEq] at h1
        obtain ⟨h1u, h1k⟩ := h1
        refine ⟨?_, h1u ▸ i2, h1k ▸ i3, ?_, ?_⟩
        · simp only at hw hv
          rw [← hw, ← hv]; exact i1
        · intro a ha
          rw [← h1k]
          exact i4 a (h1u ▸ ha)
        · intro hne
          simp only at hv
          rw [← hv]
          exact i5 hne

/-- One expansion plus backpropagation only ever increases statistics on
previously realised addresses. -/
theorem stats_mono_expand_backprop {t leaf : MCTSNode α} {p : List α}
    {chosen : α} (won : Bool) (ua : List α)
    (hleaf : getNode? t p = some leaf)
    (hfresh : chosen ∉ leaf.child_nodes.map Prod.fst)
    {p0 : List α} {wv : Nat × Nat} (h : statsAt t p0 = some wv) :
    ∃ wv', statsAt (backpropagate won
      (modifyAt (fun _ =>
        expandUpd leaf chosen (leaf.untried_actions.erase chosen) ua) t p)
      (p ++ [chosen])) p0 = some wv'
      ∧ wv.1 ≤ wv'.1 ∧ wv.2 ≤ wv'.2 := by
  have hne : p0 ≠ p ++ [chosen] := by
    intro hp0
    rw [hp0, statsAt_fresh_none hleaf hfresh] at h
    exact absurd h (by simp)
  rw [statsAt_backpropagate,
    statsAt_expand chosen _ ua p p0 t leaf hleaf hfresh, if_neg hne]
  by_cases hpre : p0 <+: p ++ [chosen]
  · rw [if_pos hpre, h, Option.map_some']
    exact ⟨_, rfl, Nat.le_add_right _ _, Nat.le_add_right _ _⟩
  · rw [if_neg hpre, h]
    exact ⟨wv, rfl, le_refl _, le_refl _⟩

end InvPreservation

section IterLemmas

variable {σ α : Type} [DecidableEq α]

theorem exp1_iter_eq_terminal (g : Game σ α) (rng : Nat → Nat)
    (identity : Nat) (s0 : σ) (fuel : Nat) (t : MCTSNode α) (c : Nat)
    {p : List α} {leaf : MCTSNode α} {ns : σ} {c1 : Nat} {won : Bool} {c2 : Nat}
    (htrav : Exp1.traverse_nodes g identity rng fuel c t s0 = some (p, leaf, ns, c1))
    (hend : g.is_ended ns = true)
    (hroll : Exp1.rollout g rng identity fuel c1 ns = some (won, c2)) :
    Exp1.iter g rng identity s0 fuel t c = some (backpropagate won t p, c2) := by
  unfold Exp1.iter
  rw [htrav]
  simp only [hend, if_true, hroll]

theorem exp1_iter_eq_expand (g : Game σ α) (rng : Nat → Nat)
    (identity : Nat) (s0 : σ) (fuel : Nat) (t : MCTSNode α) (c : Nat)
    {p : List α} {leaf : MCTSNode α} {ns : σ} {c1 : Nat}
    {chosen : α} {leafUpd : MCTSNode α} {won : Bool} {c2 : Nat}
    (htrav : Exp1.traverse_nodes g identity rng fuel c t s0 = some (p, leaf, ns, c1))
    (hend : g.is_ended ns = false)
    (hexp : Exp1.expand_leaf g leaf ns (rng c1) = some (chosen, leafUpd))
    (hroll : Exp1.rollout g rng identity fuel (c1 + 1) (g.next_state ns chosen)
      = some (won, c2)) :
    Exp1.iter g rng identity s0 fuel t c
      = some (backpropagate won (modifyAt (fun _ => leafUpd) t p) (p ++ [chosen]), c2) := by
  unfold Exp1.iter
  rw [htrav]
  simp only [hend, Bool.false_eq_true, if_false, hexp, hroll]

theorem vanilla_iter_eq_skip (g : Game σ α) (rng : Nat → Nat)
    (identity : Nat) (s0 : σ) (fuel : Nat) (t : MCTSNode α) (c : Nat)
    {p : List α} {leaf : MCTSNode α} {ns : σ}
    (htrav : Vanilla.traverse_nodes g identity fuel t s0 = some (p, leaf, ns))
    (hu : leaf.untried_actions = []) :
    Vanilla.iter g rng identity s0 fuel t c = some (t, c) := by
  unfold Vanilla.iter
  rw [htrav]
  simp only [hu, ne_eq, not_true_eq_false, if_false]

theorem vanilla_iter_eq_expand (g : Game σ α) (rng : Nat → Nat)
    (identity : Nat) (s0 : σ) (fuel : Nat) (t : MCTSNode α) (c : Nat)
    {p : List α} {leaf : MCTSNode α} {ns : σ}
    {chosen : α} {leafUpd : MCTSNode α} {won : Bool} {c2 : Nat}
    (htrav : Vanilla.traverse_nodes g identity fuel t s0 = some (p, leaf, ns))
    (hu : leaf.untried_actions ≠ [])
    (hexp : Vanilla.expand_leaf g leaf ns (rng c) = some (chosen, leafUpd))
    (hroll : Vanilla.rollout g rng fuel (c + 1) (g.next_state ns chosen)
      = some (won, c2)) :
    Vanilla.iter g rng identity s0 fuel t c
      = some (backpropagate won (modifyAt (fun _ => leafUpd) t p) (p ++ [chosen]), c2) := by
  unfold Vanilla.iter
  rw [htrav]
  simp only [hu, ne_eq, not_false_eq_true, if_true, hexp, hroll]

end IterLemmas

section IterPreserves

variable {σ α : Type} [DecidableEq α]

theorem expand_leaf_inversion {g : Game σ α} {t : MCTSNode α} {s : σ} {k : Nat}
    {chosen : α} {leafUpd : MCTSNode α}
    (h : Exp1.expand_leaf g t s k = some (chosen, leafUpd)) :
    t.untried_actions[k % t.untried_actions.length]? = some chosen
    ∧ leafUpd = expandUpd t chosen (t.untried_actions.erase chosen)
        (g.legal_actions (g.next_state s chosen)) := by
  unfold Exp1.expand_leaf at h
  cases hget : t.untried_actions[k % t.untried_actions.length]? with
  | none => rw [hget] at h; exact absurd h (by simp)
  | some ch =>
      rw [hget] at h
      simp only [Option.some.injEq] at h
      rw [Prod.mk.injEq] at h
      obtain ⟨h1, h2⟩ := h
      subst h2
      rw [← h1]
      exact ⟨rfl, rfl⟩

theorem vanilla_expand_leaf_inversion {g : Game σ α} {t : MCTSNode α} {s : σ}
    {k : Nat} {chosen : α} {leafUpd : MCTSNode α}
    (h : Vanilla.expand_leaf g t s k = some (chosen, leafUpd)) :
    t.untried_actions[k % t.untried_actions.length]? = some chosen
    ∧ leafUpd = expandUpd t chosen (t.untried_actions.erase chosen)
        (g.legal_actions (g.next_state s chosen)) := by
  unfold Vanilla.expand_leaf at h
  cases hget : t.untried_actions[k % t.untried_actions.length]? with
  | none => rw [hget] at h; exact absurd h (by simp)
  | some ch =>
      rw [hget] at h
      simp only [Option.some.injEq] at h
      rw [Prod.mk.injEq] at h
      obtain ⟨h1, h2⟩ := h
      subst h2
      rw [← h1]
      exact ⟨rfl, rfl⟩

theorem exp1_iter_inversion {g : Game σ α} {rng : Nat → Nat}
    {identity : Nat} {s0 : σ} {fuel : Nat} {t : MCTSNode α} {c : Nat}
    {t' : MCTSNode α} {c' : Nat}
    (h : Exp1.iter g rng identity s0 fuel t c = some (t', c')) :
    ∃ p leaf ns c1,
      Exp1.traverse_nodes g identity rng fuel c t s0 = some (p, leaf, ns, c1)
      ∧ ((∃ won, g.is_ended ns = true
            ∧ Exp1.rollout g rng identity fuel c1 ns = some (won, c')
            ∧ t' = backpropagate won t p)
        ∨ (∃ chosen leafUpd won, g.is_ended ns = false
            ∧ Exp1.expand_leaf g leaf ns (rng c1) = some (chosen, leafUpd)
            ∧ Exp1.rollout g rng identity fuel (c1 + 1) (g.next_state ns chosen)
                = some (won, c')
            ∧ t' = backpropagate won (modifyAt (fun _ => leafUpd) t p)
                (p ++ [chosen]))) := by
  unfold Exp1.iter at h
  split at h
  · exact absurd h (by simp)
  · rename_i p leaf ns c1 htrav
    refine ⟨p, leaf, ns, c1, htrav, ?_⟩
    split at h
    · rename_i hend
      split at h
      · exact absurd h (by simp)
      · rename_i won c2 hroll
        simp only [Option.some.injEq] at h
        rw [Prod.mk.injEq] at h
        obtain ⟨h1, h2⟩ := h
        subst h2
        exact Or.inl ⟨won, hend, hroll, h1.symm⟩
    · rename_i hend
      split at h
      · exact absurd h (by simp)
      · rename_i chosen leafUpd hexp
        split at h
        · exact absurd h (by simp)
        · rename_i won c2 hroll
          simp only [Option.some.injEq] at h
          rw [Prod.mk.injEq] at h
          obtain ⟨h1, h2⟩ := h
          subst h2
          exact Or.inr ⟨chosen, leafUpd, won, by simpa using hend, hexp, hroll, h1.symm⟩

theorem vanilla_iter_inversion {g : Game σ α} {rng : Nat → Nat}
    {identity : Nat} {s0 : σ} {fuel : Nat} {t : MCTSNode α} {c : Nat}
    {t' : MCTSNode α} {c' : Nat}
    (h : Vanilla.iter g rng identity s0 fuel t c = some (t', c')) :
    ∃ p leaf ns,
      Vanilla.traverse_nodes g identity fuel t s0 = some (p, leaf, ns)
      ∧ ((leaf.untried_actions = [] ∧ t' = t ∧ c' = c)
        ∨ (∃ chosen leafUpd won, leaf.untried_actions ≠ []
            ∧ Vanilla.expand_leaf g leaf ns (rng c) = some (chosen, leafUpd)
            ∧ Vanilla.rollout g rng fuel (c + 1) (g.next_state ns chosen)
                = some (won, c')
            ∧ t' = backpropagate won (modifyAt (fun _ => leafUpd) t p)
                (p ++ [chosen]))) := by
  unfold Vanilla.iter at h
  split at h
  · exact absurd h (by simp)
  · rename_i p leaf ns htrav
    refine ⟨p, leaf, ns, htrav, ?_⟩
    split at h
    · rename_i hu
      split at h
      · exact absurd h (by simp)
      · rename_i chosen leafUpd hexp
        split at h
        · exact absurd h (by simp)
        · rename_i won c2 hroll
          simp only [Option.some.injEq] at h
          rw [Prod.mk.injEq] at h
          obtain ⟨h1, h2⟩ := h
          subst h2
          exact Or.inr ⟨chosen, leafUpd, won, hu, hexp, hroll, h1.symm⟩
    · rename_i hu
      simp only [Option.some.injEq] at h
      rw [Prod.mk.injEq] at h
      exact Or.inl ⟨not_ne_iff.mp hu, h.1.symm, h.2.symm⟩

end IterPreserves

section LoopInvariant

variable {σ α : Type} [DecidableEq α]

theorem keys_root_nodup_expandModify {t leaf : MCTSNode α} {p : List α}
    {chosen : α} (u' ua : List α)
    (hleaf : getNode? t p = some leaf)
    (hfresh : chosen ∉ leaf.child_nodes.map Prod.fst)
    (hInv : TreeInv t) :
    ((modifyAt (fun _ => expandUpd leaf chosen u' ua) t p).child_nodes.map
      Prod.fst).Nodup := by
  have hshape := shapeAt_expand chosen u' ua p [] t leaf hleaf hfresh
  rw [shapeAt_nil] at hshape
  by_cases hp : ([] : List α) = p
  · rw [if_pos hp] at hshape
    injection hshape with h1
    rw [Prod.mk.injEq] at h1
    rw [h1.2]
    obtain ⟨i1, i2, i3, i4, i5⟩ := hInv p leaf hleaf
    rw [List.nodup_append]
    exact ⟨i3, List.nodup_singleton chosen, by
      intro a ha hb
      rw [List.mem_singleton.mp hb] at ha
      exact hfresh ha⟩
  · rw [if_neg hp, if_neg (by
        intro hcon
        exact absurd (congrArg List.length hcon) (by simp)), shapeAt_nil] at hshape
    injection hshape with h1
    rw [Prod.mk.injEq] at h1
    rw [h1.2]
    exact (hInv [] t (by simp [getNode?])).2.2.1

/-- One successful iteration of the mcts_vanilla400.py think loop keeps the
tree invariant, increments the root visits by exactly one, increases the
root children's visits sum by at most one, and never decreases any realised
node's statistics. -/
theorem exp1_iter_preserves (g : Game σ α) (rng : Nat → Nat) (identity : Nat)
    (s0 : σ) (fuel : Nat) (hnd : ∀ s, (g.legal_actions s).Nodup)
    {t : MCTSNode α} {c : Nat} {t' : MCTSNode α} {c' : Nat}
    (hInv : TreeInv t)
    (h : Exp1.iter g rng identity s0 fuel t c = some (t', c')) :
    TreeInv t'
    ∧ t'.visits = t.visits + 1
    ∧ sumChildVisits t' ≤ sumChildVisits t + 1
    ∧ (∀ p0 wv, statsAt t p0 = some wv →
        ∃ wv', statsAt t' p0 = some wv' ∧ wv.1 ≤ wv'.1 ∧ wv.2 ≤ wv'.2) := by
  obtain ⟨p, leaf, ns, c1, htrav, hcase⟩ := exp1_iter_inversion h
  have hkeys : ∀ p0 n, getNode? t p0 = some n →
      (n.child_nodes.map Prod.fst).Nodup :=
    fun p0 n hg => (hInv p0 n hg).2.2.1
  obtain ⟨hleaf, hstop⟩ :=
    exp1_traverse_valid g identity rng fuel c t s0 p leaf ns c1 hkeys htrav
  have hrootk : (t.child_nodes.map Prod.fst).Nodup :=
    (hInv [] t (by simp [getNode?])).2.2.1
  rcases hcase with ⟨won, hend, hroll, ht'⟩ | ⟨chosen, leafUpd, won, hend, hexp, hroll, ht'⟩
  · subst ht'
    refine ⟨treeInv_backpropagate won p hInv, visits_backpropagate won t p, ?_, ?_⟩
    · exact sumChildVisits_backpropagate_le won t p hrootk
    · intro p0 wv hwv
      exact stats_mono_backpropagate won p hwv
  · obtain ⟨hget, hupd⟩ := expand_leaf_inversion hexp
    subst hupd
    subst ht'
    have hmem : chosen ∈ leaf.untried_actions := List.getElem?_mem hget
    have hfresh : chosen ∉ leaf.child_nodes.map Prod.fst :=
      (hInv p leaf hleaf).2.2.2.1 chosen hmem
    refine ⟨treeInv_expand_backprop won _ hleaf hInv hmem (hnd _), ?_, ?_, ?_⟩
    · rw [visits_backpropagate, visits_expandModify _ _ _ hleaf]
    · calc sumChildVisits (backpropagate won
            (modifyAt (fun _ => expandUpd leaf chosen
              (leaf.untried_actions.erase chosen)
              (g.legal_actions (g.next_state ns chosen))) t p) (p ++ [chosen]))
          ≤ sumChildVisits (modifyAt (fun _ => expandUpd leaf chosen
              (leaf.untried_actions.erase chosen)
              (g.legal_actions (g.next_state ns chosen))) t p) + 1 :=
            sumChildVisits_backpropagate_le won _ _
              (keys_root_nodup_expandModify _ _ hleaf hfresh hInv)
        _ = sumChildVisits t + 1 := by
            rw [sumChildVisits_expandModify t leaf p chosen _ _ hleaf hfresh hrootk]
    · intro p0 wv hwv
      exact stats_mono_expand_backprop won _ hleaf hfresh hwv

/-- One successful iteration of the mcts_vanilla.py think loop keeps the
tree invariant, increments the root visits by at most one, increases the
root children's visits sum by at most one, and never decreases any realised
node's statistics. -/
theorem vanilla_iter_preserves (g : Game σ α) (rng : Nat → Nat) (identity : Nat)
    (s0 : σ) (fuel : Nat) (hnd : ∀ s, (g.legal_actions s).Nodup)
    {t : MCTSNode α} {c : Nat} {t' : MCTSNode α} {c' : Nat}
    (hInv : TreeInv t)
    (h : Vanilla.iter g rng identity s0 fuel t c = some (t', c')) :
    TreeInv t'
    ∧ t'.visits ≤ t.visits + 1
    ∧ sumChildVisits t' ≤ sumChildVisits t + 1
    ∧ (∀ p0 wv, statsAt t p0 = some wv →
        ∃ wv', statsAt t' p0 = some wv' ∧ wv.1 ≤ wv'.1 ∧ wv.2 ≤ wv'.2) := by
  obtain ⟨p, leaf, ns, htrav, hcase⟩ := vanilla_iter_inversion h
  have hkeys : ∀ p0 n, getNode? t p0 = some n →
      (n.child_nodes.map Prod.fst).Nodup :=
    fun p0 n hg => (hInv p0 n hg).2.2.1
  obtain ⟨hleaf, hstop⟩ :=
    vanilla_traverse_valid g identity fuel t s0 p leaf ns hkeys htrav
  have hrootk : (t.child_nodes.map Prod.fst).Nodup :=
    (hInv [] t (by simp [getNode?])).2.2.1
  rcases hcase with ⟨hu, ht', hc'⟩ | ⟨chosen, leafUpd, won, hu, hexp, hroll, ht'⟩
  · subst ht'
    exact ⟨hInv, Nat.le_add_right _ _, Nat.le_add_right _ _,
      fun p0 wv hwv => ⟨wv, hwv, le_refl _, le_refl _⟩⟩
  · obtain ⟨hget, hupd⟩ := vanilla_expand_leaf_inversion hexp
    subst hupd
    subst ht'
    have hmem : chosen ∈ leaf.untried_actions := List.getElem?_mem hget
    have hfresh : chosen ∉ leaf.child_nodes.map Prod.fst :=
      (hInv p leaf hleaf).2.2.2.1 chosen hmem
    refine ⟨treeInv_expand_backprop won _ hleaf hInv hmem (hnd _), ?_, ?_, ?_⟩
    · rw [visits_backpropagate, visits_expandModify _ _ _ hleaf]
    · calc sumChildVisits (backpropagate won
            (modifyAt (fun _ => expandUpd leaf chosen
              (leaf.untried_actions.erase chosen)
              (g.legal_actions (g.next_state ns chosen))) t p) (p ++ [chosen]))
          ≤ sumChildVisits (modifyAt (fun _ => expandUpd leaf chosen
              (leaf.untried_actions.erase chosen)
              (g.legal_actions (g.next_state ns chosen))) t p) + 1 :=
            sumChildVisits_backpropagate_le won _ _
              (keys_root_nodup_expandModify _ _ hleaf hfresh hInv)
        _ = sumChildVisits t + 1 := by
            rw [sumChildVisits_expandModify t leaf p chosen _ _ hleaf hfresh hrootk]
    · intro p0 wv hwv
      exact stats_mono_expand_backprop won _ hleaf hfresh hwv

/-- The loop of mcts_vanilla400.py maintains the tree invariant, gives the
root exactly one visit per completed iteration, and keeps the sum of the
root children's visits bounded by the iteration count. -/
theorem exp1_loop_invariant (g : Game σ α) (rng : Nat → Nat) (identity : Nat)
    (s0 : σ) (fuel : Nat) (hnd : ∀ s, (g.legal_actions s).Nodup) :
    ∀ (N : Nat) {t : MCTSNode α} {c : Nat},
    Exp1.loop g rng identity s0 fuel N = some (t, c) →
    TreeInv t ∧ t.visits = N ∧ sumChildVisits t ≤ N := by
  intro N
  induction N with
  | zero =>
      intro t c h
      simp only [Exp1.loop, Option.some.injEq] at h
      rw [Prod.mk.injEq] at h
      rw [← h.1]
      exact ⟨treeInv_root g s0 hnd, rfl, by simp [sumChildVisits]⟩
  | succ N ih =>
      intro t c h
      rw [show Exp1.loop g rng identity s0 fuel (N + 1)
          = (Exp1.loop g rng identity s0 fuel N).bind
              (fun tc => Exp1.iter g rng identity s0 fuel tc.1 tc.2) from rfl] at h
      cases hprev : Exp1.loop g rng identity s0 fuel N with
      | none => rw [hprev] at h; exact absurd h (by simp)
      | some tc =>
          obtain ⟨t0, c0⟩ := tc
          rw [hprev] at h
          obtain ⟨i1, i2, i3⟩ := ih hprev
          obtain ⟨j1, j2, j3, j4⟩ :=
            exp1_iter_preserves g rng identity s0 fuel hnd i1 (by exact h)
          exact ⟨j1, by omega, by omega⟩

/-- The loop of mcts_vanilla.py maintains the tree invariant, gives the
root at most one visit per iteration, and keeps the sum of the root
children's visits bounded by the iteration count. -/
theorem vanilla_loop_invariant (g : Game σ α) (rng : Nat → Nat) (identity : Nat)
    (s0 : σ) (fuel : Nat) (hnd : ∀ s, (g.legal_actions s).Nodup) :
    ∀ (N : Nat) {t : MCTSNode α} {c : Nat},
    Vanilla.loop g rng identity s0 fuel N = some (t, c) →
    TreeInv t ∧ t.visits ≤ N ∧ sumChildVisits t ≤ N := by
  intro N
  induction N with
  | zero =>
      intro t c h
      simp only [Vanilla.loop, Option.some.injEq] at h
      rw [Prod.mk.injEq] at h
      rw [← h.1]
      exact ⟨treeInv_root g s0 hnd, le_refl 0, by simp [sumChildVisits]⟩
  | succ N ih =>
      intro t c h
      rw [show Vanilla.loop g rng identity s0 fuel (N + 1)
          = (Vanilla.loop g rng identity s0 fuel N).bind
              (fun tc => Vanilla.iter g rng identity s0 fuel tc.1 tc.2) from rfl] at h
      cases hprev : Vanilla.loop g rng identity s0 fuel N with
      | none => rw [hprev] at h; exact absurd h (by simp)
      | some tc =>
          obtain ⟨t0, c0⟩ := tc
          rw [hprev] at h
          obtain ⟨i1, i2, i3⟩ := ih hprev
          obtain ⟨j1, j2, j3, j4⟩ :=
            vanilla_iter_preserves g rng identity s0 fuel hnd i1 (by exact h)
          exact ⟨j1, by omega, by omega⟩

end LoopInvariant

section ClaimHelpers

variable {σ α : Type} [DecidableEq α]

omit [DecidableEq α] in
theorem exp1_rollout_eq_playout (g : Game σ α) (rng : Nat → Nat)
    (identity : Nat) :
    ∀ (fuel c : Nat) (s : σ),
    Exp1.rollout g rng identity fuel c s
      = (Exp1.playout g rng fuel c s).map
          fun r => (g.points_values r.1 identity == 1, r.2) := by
  intro fuel
  induction fuel with
  | zero => intro c s; rfl
  | succ fuel ih =>
      intro c s
      show (if g.is_ended s then some (g.points_values s identity == 1, c)
          else match (g.legal_actions s)[rng c % (g.legal_actions s).length]? with
            | none => none
            | some m => Exp1.rollout g rng identity fuel (c + 1) (g.next_state s m))
        = ((if g.is_ended s then some (s, c)
          else match (g.legal_actions s)[rng c % (g.legal_actions s).length]? with
            | none => none
            | some m => Exp1.playout g rng fuel (c + 1) (g.next_state s m)).map
              fun r => (g.points_values r.1 identity == 1, r.2))
      by_cases he : g.is_ended s
      · rw [if_pos he, if_pos he, Option.map_some']
      · rw [if_neg he, if_neg he]
        cases hm : (g.legal_actions s)[rng c % (g.legal_actions s).length]? with
        | none => rfl
        | some m => exact ih (c + 1) (g.next_state s m)

theorem pick_reaches_mem {β : Type} {l : List β} {x : β} (hx : x ∈ l) :
    ∃ k, l[k % l.length]? = some x := by
  obtain ⟨i, hlt, hi⟩ := List.getElem_of_mem hx
  refine ⟨i, ?_⟩
  rw [Nat.mod_eq_of_lt hlt, List.getElem?_eq_getElem hlt, hi]

end ClaimHelpers

section TerminalRootRuns

/-- The mcts_vanilla.py think loop at the terminal root state of gW leaves
the fresh root untouched for any number of iterations: selection stops at
the root, which has no untried actions, and the iteration body is skipped
entirely. -/
theorem vanilla_loop_terminal_gW :
    ∀ N, Vanilla.loop gW rngW 1 true 1 N
      = some (MCTSNode.mk 0 0 [] [], 0) := by
  intro N
  induction N with
  | zero => rfl
  | succ N ih =>
      show (Vanilla.loop gW rngW 1 true 1 N).bind
          (fun tc => Vanilla.iter gW rngW 1 true 1 tc.1 tc.2) = _
      rw [ih]
      rfl

/-- The mcts_vanilla400.py think loop at the terminal root state of gW
backpropagates one win per iteration at the root itself, creating no
children. -/
theorem exp1_loop_terminal_gW :
    ∀ N, Exp1.loop gW rngW 1 true 1 N
      = some (MCTSNode.mk N N [] [], 0) := by
  intro N
  induction N with
  | zero => rfl
  | succ N ih =>
      show (Exp1.loop gW rngW 1 true 1 N).bind
          (fun tc => Exp1.iter gW rngW 1 true 1 tc.1 tc.2) = _
      rw [ih]
      rfl

end TerminalRootRuns

section ThinkMembership

variable {σ α : Type} [DecidableEq α]

theorem vanilla_think_mem (g : Game σ α) (rng : Nat → Nat) (fuel N : Nat)
    (s0 : σ) {t : MCTSNode α} {c : Nat}
    (hloop : Vanilla.loop g rng (g.current_player s0) s0 fuel N = some (t, c))
    (hne : t.child_nodes ≠ []) :
    ∃ kc ∈ t.child_nodes, Vanilla.think g rng fuel N s0 = some kc.1 := by
  have hpos : ∀ kc ∈ t.child_nodes,
      0 ≤ ((kc.2.wins : Real) / kc.2.visits) :=
    fun kc _ => div_nonneg (Nat.cast_nonneg _) (Nat.cast_nonneg _)
  obtain ⟨y, hy, hscan⟩ := vanillaFinal_mem
    (fun kc : α × MCTSNode α => (kc.2.wins : Real) / kc.2.visits)
    t.child_nodes hpos hne
  obtain ⟨k, cn⟩ := y
  refine ⟨(k, cn), hy, ?_⟩
  unfold Vanilla.think
  rw [hloop]
  show (match (vanillaFinalAux
      (fun kc : α × MCTSNode α => (kc.2.wins : Real) / kc.2.visits)
      (0, none) t.child_nodes).2 with
    | none => none
    | some (k, _) => some k) = some (k, cn).1
  rw [hscan]

theorem exp1_think_mem (g : Game σ α) (rng : Nat → Nat) (fuel N : Nat)
    (s0 : σ) {t : MCTSNode α} {c : Nat}
    (hloop : Exp1.loop g rng (g.current_player s0) s0 fuel N = some (t, c))
    (hne : t.child_nodes ≠ []) :
    ∃ kc ∈ t.child_nodes, Exp1.think g rng fuel N s0 = some kc.1 := by
  have hpos : ∀ kc ∈ t.child_nodes,
      0 ≤ ((fun kc : α × MCTSNode α => (kc.2.wins : Real) / kc.2.visits) kc) :=
    fun kc _ => div_nonneg (Nat.cast_nonneg _) (Nat.cast_nonneg _)
  obtain ⟨g1, g2, g3, g4, g5⟩ := e1Scan_char
    (fun kc : α × MCTSNode α => (kc.2.wins : Real) / kc.2.visits)
    t.child_nodes hpos hne
  have hlen : 0 < (e1Scan
      (fun kc : α × MCTSNode α => (kc.2.wins : Real) / kc.2.visits)
      t.child_nodes).2.length := List.length_pos.mpr g5
  have hidx : rng c % (e1Scan
      (fun kc : α × MCTSNode α => (kc.2.wins : Real) / kc.2.visits)
      t.child_nodes).2.length < (e1Scan
      (fun kc : α × MCTSNode α => (kc.2.wins : Real) / kc.2.visits)
      t.child_nodes).2.length := Nat.mod_lt _ hlen
  obtain ⟨y, hy⟩ : ∃ y, (e1Scan
      (fun kc : α × MCTSNode α => (kc.2.wins : Real) / kc.2.visits)
      t.child_nodes).2[rng c % (e1Scan
      (fun kc : α × MCTSNode α => (kc.2.wins : Real) / kc.2.visits)
      t.child_nodes).2.length]? = some y :=
    ⟨_, List.getElem?_eq_getElem hidx⟩
  have hmem : y ∈ t.child_nodes := g4 _ (List.getElem?_mem hy)
  obtain ⟨k, cn⟩ := y
  refine ⟨(k, cn), hmem, ?_⟩
  unfold Exp1.think
  rw [hloop]
  show (match (e1Scan
      (fun kc : α × MCTSNode α => (kc.2.wins : Real) / kc.2.visits)
      t.child_nodes).2[rng c % (e1Scan
      (fun kc : α × MCTSNode α => (kc.2.wins : Real) / kc.2.visits)
      t.child_nodes).2.length]? with
    | none => none
    | some (k, _) => some k) = some (k, cn).1
  rw [hy]

end ThinkMembership

/-! Claim theorems. -/

/-- C6: backpropagation from the node at address p with a given outcome
changes the statistics of exactly the nodes on the chain from that node up
to and including the root (the prefixes of p): each has visits incremented
by exactly 1 and wins incremented by 1 iff the outcome is a win, while the
wins and visits of every node not on that chain are unchanged. -/
theorem backpropagate_chain_frame {α : Type} [DecidableEq α] (won : Bool)
    (t : MCTSNode α) (p p' : List α) :
    statsAt (backpropagate won t p) p' =
      if p' <+: p then
        (statsAt t p').map fun wv => (wv.1 + (if won then 1 else 0), wv.2 + 1)
      else statsAt t p' :=
  statsAt_backpropagate won p' p t

/-- C9: for a node with a non-empty, duplicate-free untried-action list
disjoint from its children keys, one expansion step (in both source
variants) removes exactly one action from untried_actions and adds exactly
one child entry keyed by that action; the two sets remain disjoint and
their union is unchanged. -/
theorem expansion_untried_children {σ α : Type} [DecidableEq α]
    (g : Game σ α) (t : MCTSNode α) (s : σ) (pick : Nat)
    (hne : t.untried_actions ≠ [])
    (hnd : t.untried_actions.Nodup)
    (hdisj : ∀ a ∈ t.untried_actions, a ∉ t.child_nodes.map Prod.fst) :
    ∃ chosen t',
      Exp1.expand_leaf g t s pick = some (chosen, t')
      ∧ Vanilla.expand_leaf g t s pick = some (chosen, t')
      ∧ chosen ∈ t.untried_actions
      ∧ t'.untried_actions = t.untried_actions.erase chosen
      ∧ t'.untried_actions.length + 1 = t.untried_actions.length
      ∧ t'.child_nodes.map Prod.fst = t.child_nodes.map Prod.fst ++ [chosen]
      ∧ (∀ a ∈ t'.untried_actions, a ∉ t'.child_nodes.map Prod.fst)
      ∧ (∀ a, (a ∈ t'.untried_actions ∨ a ∈ t'.child_nodes.map Prod.fst)
          ↔ (a ∈ t.untried_actions ∨ a ∈ t.child_nodes.map Prod.fst)) := by
  have hlen : 0 < t.untried_actions.length := List.length_pos.mpr hne
  have hidx : pick % t.untried_actions.length < t.untried_actions.length :=
    Nat.mod_lt _ hlen
  obtain ⟨chosen, hget⟩ :
      ∃ ch, t.untried_actions[pick % t.untried_actions.length]? = some ch :=
    ⟨_, List.getElem?_eq_getElem hidx⟩
  have hmem : chosen ∈ t.untried_actions := List.getElem?_mem hget
  have hfresh : chosen ∉ t.child_nodes.map Prod.fst := hdisj chosen hmem
  refine ⟨chosen, _, expand_leaf_eq g t s pick hget,
    vanilla_expand_leaf_eq g t s pick hget, hmem, rfl, ?_, ?_, ?_, ?_⟩
  · have := List.length_erase_of_mem hmem
    show (t.untried_actions.erase chosen).length + 1 = t.untried_actions.length
    omega
  · show (dictSet t.child_nodes chosen
        (MCTSNode.mk 0 0 (g.legal_actions (g.next_state s chosen)) [])).map
        Prod.fst = t.child_nodes.map Prod.fst ++ [chosen]
    rw [dictSet_of_not_mem _ hfresh, List.map_append]
    rfl
  · intro a ha
    show a ∉ (dictSet t.child_nodes chosen
        (MCTSNode.mk 0 0 (g.legal_actions (g.next_state s chosen)) [])).map
        Prod.fst
    rw [dictSet_of_not_mem _ hfresh, List.map_append]
    have ha2 := (List.Nodup.mem_erase_iff hnd).mp ha
    intro hcon
    rcases List.mem_append.mp hcon with h3 | h3
    · exact hdisj a ha2.2 h3
    · exact ha2.1 (by simpa using h3)
  · intro a
    show (a ∈ t.untried_actions.erase chosen
        ∨ a ∈ (dictSet t.child_nodes chosen
          (MCTSNode.mk 0 0 (g.legal_actions (g.next_state s chosen)) [])).map
          Prod.fst)
      ↔ (a ∈ t.untried_actions ∨ a ∈ t.child_nodes.map Prod.fst)
    rw [dictSet_of_not_mem _ hfresh, List.map_append]
    constructor
    · intro h
      rcases h with h | h
      · exact Or.inl (List.mem_of_mem_erase h)
      · rcases List.mem_append.mp h with h3 | h3
        · exact Or.inr h3
        · exact Or.inl (by rw [show a = chosen from by simpa using h3]; exact hmem)
    · intro h
      rcases h with h | h
      · by_cases hc : a = chosen
        · exact Or.inr (List.mem_append.mpr (Or.inr (by simp [hc])))
        · exact Or.inl ((List.Nodup.mem_erase_iff hnd).mpr ⟨hc, h⟩)
      · exact Or.inr (List.mem_append.mpr (Or.inl h))

/-- Witness for C9 at a concrete node with two untried actions and no
children. -/
theorem expansion_untried_children_witness :
    ((([0, 1] : List Nat) ≠ [])
      ∧ ([0, 1] : List Nat).Nodup
      ∧ (∀ a ∈ ([0, 1] : List Nat), a ∉ (([] : List (Nat × MCTSNode Nat)).map Prod.fst)))
    ∧ (∃ chosen t',
      Exp1.expand_leaf gW (MCTSNode.mk 0 0 [0, 1] []) false 0 = some (chosen, t')
      ∧ Vanilla.expand_leaf gW (MCTSNode.mk 0 0 [0, 1] []) false 0 = some (chosen, t')
      ∧ chosen ∈ (MCTSNode.mk 0 0 [0, 1] [] : MCTSNode Nat).untried_actions
      ∧ t'.untried_actions
          = (MCTSNode.mk 0 0 [0, 1] [] : MCTSNode Nat).untried_actions.erase chosen
      ∧ t'.untried_actions.length + 1
          = (MCTSNode.mk 0 0 [0, 1] [] : MCTSNode Nat).untried_actions.length
      ∧ t'.child_nodes.map Prod.fst
          = (MCTSNode.mk 0 0 [0, 1] [] : MCTSNode Nat).child_nodes.map Prod.fst ++ [chosen]
      ∧ (∀ a ∈ t'.untried_actions, a ∉ t'.child_nodes.map Prod.fst)
      ∧ (∀ a, (a ∈ t'.untried_actions ∨ a ∈ t'.child_nodes.map Prod.fst)
          ↔ (a ∈ (MCTSNode.mk 0 0 [0, 1] [] : MCTSNode Nat).untried_actions
            ∨ a ∈ (MCTSNode.mk 0 0 [0, 1] [] : MCTSNode Nat).child_nodes.map Prod.fst))) :=
  ⟨⟨by decide, by decide, by decide⟩,
    expansion_untried_children gW (MCTSNode.mk 0 0 [0, 1] []) false 0
      (by decide) (by decide) (by decide)⟩

/-- C2 (amended): in mcts_vanilla400.py every think iteration runs exactly
one simulation and one backpropagation (expanding first when the reached
state is non-terminal), so the root's visit counter equals the iteration
budget N on completion; in mcts_vanilla.py an iteration whose selection
stops at a node without untried actions performs no expansion, simulation
or backpropagation, so the root's visit counter is only bounded by N.  In
both variants the sum of the visit counters over the root's direct
children never exceeds N. -/
theorem think_iteration_budget {σ α : Type} [DecidableEq α] (g : Game σ α)
    (rng : Nat → Nat) (identity : Nat) (s0 : σ) (fuel N : Nat)
    (hnd : ∀ s, (g.legal_actions s).Nodup) :
    (∀ t c, Exp1.loop g rng identity s0 fuel N = some (t, c) →
        t.visits = N ∧ sumChildVisits t ≤ N)
    ∧ (∀ t c, Vanilla.loop g rng identity s0 fuel N = some (t, c) →
        t.visits ≤ N ∧ sumChildVisits t ≤ N) := by
  constructor
  · intro t c h
    obtain ⟨_, h2, h3⟩ := exp1_loop_invariant g rng identity s0 fuel hnd N h
    exact ⟨h2, h3⟩
  · intro t c h
    obtain ⟨_, h2, h3⟩ := vanilla_loop_invariant g rng identity s0 fuel hnd N h
    exact ⟨h2, h3⟩

/-- Witness for C2 on the one-move game. -/
theorem think_iteration_budget_witness :
    (∀ s, (gW.legal_actions s).Nodup)
    ∧ Exp1.loop gW rngW 1 false 2 1
        = some (MCTSNode.mk 1 1 [] [(0, MCTSNode.mk 1 1 [] [])], 1)
    ∧ ((MCTSNode.mk 1 1 [] [(0, MCTSNode.mk 1 1 [] [])] : MCTSNode Nat).visits = 1
        ∧ sumChildVisits
            (MCTSNode.mk 1 1 [] [(0, MCTSNode.mk 1 1 [] [])] : MCTSNode Nat) ≤ 1) :=
  ⟨by decide, rfl,
    (think_iteration_budget gW rngW 1 false 2 1 (by decide)).1 _ 1 rfl⟩

/-- C2 (counterexample): with the game already over at the root, one full
iteration of the mcts_vanilla.py think loop performs no backpropagation at
all — the root's visit counter stays 0 where the claim (one
backpropagation per iteration, every backpropagation passing through the
root) requires it to be 1. -/
theorem think_iteration_counterexample :
    (Vanilla.loop gW rngW 1 true 5 1).map (fun tc => tc.1.visits) = some 0
    ∧ (0 : Nat) ≠ 1 :=
  ⟨rfl, by decide⟩

/-- C7: after any number of completed iterations of either think loop,
every node of the tree satisfies wins ≤ visits, and every non-root node
has at least one visit; moreover every node on the chain walked by a
backpropagation has at least one visit immediately afterwards, and a
further iteration never decreases the wins or visits of any existing
node. -/
theorem wins_le_visits_invariant {σ α : Type} [DecidableEq α] (g : Game σ α)
    (rng : Nat → Nat) (identity : Nat) (s0 : σ) (fuel : Nat)
    (hnd : ∀ s, (g.legal_actions s).Nodup) :
    (∀ N t c, Exp1.loop g rng identity s0 fuel N = some (t, c) →
        ∀ p n, getNode? t p = some n →
          n.wins ≤ n.visits ∧ (p ≠ [] → 1 ≤ n.visits))
    ∧ (∀ N t c, Vanilla.loop g rng identity s0 fuel N = some (t, c) →
        ∀ p n, getNode? t p = some n →
          n.wins ≤ n.visits ∧ (p ≠ [] → 1 ≤ n.visits))
    ∧ (∀ (t : MCTSNode α) (won : Bool) (p p' : List α) (n' : MCTSNode α),
        p' <+: p → getNode? (backpropagate won t p) p' = some n' →
          1 ≤ n'.visits)
    ∧ (∀ N t c t' c', Exp1.loop g rng identity s0 fuel N = some (t, c) →
        Exp1.iter g rng identity s0 fuel t c = some (t', c') →
        ∀ p wv, statsAt t p = some wv →
          ∃ wv', statsAt t' p = some wv' ∧ wv.1 ≤ wv'.1 ∧ wv.2 ≤ wv'.2) := by
  refine ⟨?_, ?_, ?_, ?_⟩
  · intro N t c h p n hg
    have hInv := (exp1_loop_invariant g rng identity s0 fuel hnd N h).1
    obtain ⟨i1, _, _, _, i5⟩ := hInv p n hg
    exact ⟨i1, i5⟩
  · intro N t c h p n hg
    have hInv := (vanilla_loop_invariant g rng identity s0 fuel hnd N h).1
    obtain ⟨i1, _, _, _, i5⟩ := hInv p n hg
    exact ⟨i1, i5⟩
  · intro t won p p' n' hpre hg'
    exact visits_pos_backpropagate won hpre hg'
  · intro N t c t' c' hloop hiter p wv hwv
    have hInv := (exp1_loop_invariant g rng identity s0 fuel hnd N hloop).1
    exact (exp1_iter_preserves g rng identity s0 fuel hnd hInv hiter).2.2.2 p wv hwv

/-- Witness for C7 on the one-move game. -/
theorem wins_le_visits_invariant_witness :
    (∀ s, (gW.legal_actions s).Nodup)
    ∧ ((∀ N t c, Exp1.loop gW rngW 1 false 2 N = some (t, c) →
        ∀ p n, getNode? t p = some n →
          n.wins ≤ n.visits ∧ (p ≠ [] → 1 ≤ n.visits))
    ∧ (∀ N t c, Vanilla.loop gW rngW 1 false 2 N = some (t, c) →
        ∀ p n, getNode? t p = some n →
          n.wins ≤ n.visits ∧ (p ≠ [] → 1 ≤ n.visits))
    ∧ (∀ (t : MCTSNode Nat) (won : Bool) (p p' : List Nat) (n' : MCTSNode Nat),
        p' <+: p → getNode? (backpropagate won t p) p' = some n' →
          1 ≤ n'.visits)
    ∧ (∀ N t c t' c', Exp1.loop gW rngW 1 false 2 N = some (t, c) →
        Exp1.iter gW rngW 1 false 2 t c = some (t', c') →
        ∀ p wv, statsAt t p = some wv →
          ∃ wv', statsAt t' p = some wv' ∧ wv.1 ≤ wv'.1 ∧ wv.2 ≤ wv'.2)) :=
  ⟨by decide, wins_le_visits_invariant gW rngW 1 false 2 (by decide)⟩

/-- C8: after any number of completed iterations of either think loop,
every child reachable in the tree (hence every child the UCT scan of the
next selection walk can score) has at least one visit, so the divisions by
child.visits in the selection score never divide by zero. -/
theorem selection_positive_visits {σ α : Type} [DecidableEq α] (g : Game σ α)
    (rng : Nat → Nat) (identity : Nat) (s0 : σ) (fuel : Nat)
    (hnd : ∀ s, (g.legal_actions s).Nodup) :
    (∀ N t c, Exp1.loop g rng identity s0 fuel N = some (t, c) →
        ∀ p n, getNode? t p = some n → ∀ kc ∈ n.child_nodes, 1 ≤ kc.2.visits)
    ∧ (∀ N t c, Vanilla.loop g rng identity s0 fuel N = some (t, c) →
        ∀ p n, getNode? t p = some n → ∀ kc ∈ n.child_nodes, 1 ≤ kc.2.visits) := by
  have key : ∀ (t : MCTSNode α), TreeInv t →
      ∀ p n, getNode? t p = some n → ∀ kc ∈ n.child_nodes, 1 ≤ kc.2.visits := by
    intro t hInv p n hg kc hkc
    obtain ⟨a, cn⟩ := kc
    have hknd : (n.child_nodes.map Prod.fst).Nodup := (hInv p n hg).2.2.1
    have hlk : lookupChild n.child_nodes a = some cn :=
      lookupChild_of_mem_nodup hkc hknd
    have hg2 : getNode? t (p ++ [a]) = some cn := by
      rw [getNode?_append, hg]
      show getNode? n [a] = some cn
      rw [getNode?_cons_some hlk]
      rfl
    exact (hInv (p ++ [a]) cn hg2).2.2.2.2 (by simp)
  constructor
  · intro N t c h
    exact key t (exp1_loop_invariant g rng identity s0 fuel hnd N h).1
  · intro N t c h
    exact key t (vanilla_loop_invariant g rng identity s0 fuel hnd N h).1

/-- Witness for C8 on the one-move game. -/
theorem selection_positive_visits_witness :
    (∀ s, (gW.legal_actions s).Nodup)
    ∧ ((∀ N t c, Exp1.loop gW rngW 1 false 2 N = some (t, c) →
        ∀ p n, getNode? t p = some n → ∀ kc ∈ n.child_nodes, 1 ≤ kc.2.visits)
    ∧ (∀ N t c, Vanilla.loop gW rngW 1 false 2 N = some (t, c) →
        ∀ p n, getNode? t p = some n → ∀ kc ∈ n.child_nodes, 1 ≤ kc.2.visits)) :=
  ⟨by decide, selection_positive_visits gW rngW 1 false 2 (by decide)⟩

/-- C10: whenever either think finishes its loop with at least one root
child, the returned action is the key of one of the root's children: the
final best-child scan always settles on a child because every win ratio is
non-negative and so matches or beats the initial best value 0. -/
theorem final_scan_returns_child {σ α : Type} [DecidableEq α] (g : Game σ α)
    (rng : Nat → Nat) (fuel N : Nat) (s0 : σ) :
    (∀ t c, Vanilla.loop g rng (g.current_player s0) s0 fuel N = some (t, c) →
        t.child_nodes ≠ [] →
        ∃ kc ∈ t.child_nodes, Vanilla.think g rng fuel N s0 = some kc.1)
    ∧ (∀ t c, Exp1.loop g rng (g.current_player s0) s0 fuel N = some (t, c) →
        t.child_nodes ≠ [] →
        ∃ kc ∈ t.child_nodes, Exp1.think g rng fuel N s0 = some kc.1) :=
  ⟨fun _ c h hne => vanilla_think_mem g rng fuel N s0 h hne,
   fun _ c h hne => exp1_think_mem g rng fuel N s0 h hne⟩

/-- Witness for C10 on the one-move game. -/
theorem final_scan_returns_child_witness :
    (Vanilla.loop gW rngW (gW.current_player false) false 3 1
        = some (MCTSNode.mk 1 1 [] [(0, MCTSNode.mk 1 1 [] [])], 1)
      ∧ (MCTSNode.mk 1 1 [] [(0, MCTSNode.mk 1 1 [] [])] : MCTSNode Nat).child_nodes ≠ [])
    ∧ (∃ kc ∈ (MCTSNode.mk 1 1 [] [(0, MCTSNode.mk 1 1 [] [])] : MCTSNode Nat).child_nodes,
        Vanilla.think gW rngW 3 1 false = some kc.1) :=
  ⟨⟨rfl, by simp⟩,
    (final_scan_returns_child gW rngW 3 1 false).1 _ 1 rfl (by simp)⟩

/-- C5: on a terminal root state (no legal action exists) both source
variants crash instead of signalling an explicit "no legal action
available" error: mcts_vanilla.py dereferences best_child = None at line
166 and mcts_vanilla400.py calls random.choice on the empty best_children
list at line 165.  The none outcome of the model is exactly that uncaught
crash; no explicit error path exists in either source. -/
theorem terminal_root_crash :
    ∀ N, Vanilla.think gW rngW 1 N true = none
      ∧ Exp1.think gW rngW 1 N true = none := by
  intro N
  constructor
  · unfold Vanilla.think
    rw [show gW.current_player true = 1 from rfl, vanilla_loop_terminal_gW N]
    rfl
  · unfold Exp1.think
    rw [show gW.current_player true = 1 from rfl, exp1_loop_terminal_gW N]
    rfl

/-- C3 (amended): the rollout of mcts_vanilla400.py (and of
mcts_modified500.py) reports a win exactly when points_values of the
terminal state reached by the random playout gives exactly 1 to the bot
identity passed in.  The rollout of mcts_vanilla.py does not follow this
rule (see the counterexample): it never consults points_values and decides
by comparing the terminal state's mover against an identity derived from
the rollout's start state. -/
theorem rollout_outcome_points {σ α : Type} (g : Game σ α)
    (rng : Nat → Nat) (identity : Nat) (fuel c : Nat) (s : σ) :
    Exp1.rollout g rng identity fuel c s
      = (Exp1.playout g rng fuel c s).map
          fun r => (g.points_values r.1 identity == 1, r.2) :=
  exp1_rollout_eq_playout g rng identity fuel c s

/-- C3 (counterexample): in the drawn one-move game gR the vanilla rollout
reports a win even though points_values awards 0 (not 1) to both players
at the reached terminal state, so the outcome is not determined by
points_values being exactly 1 for the bot. -/
theorem rollout_outcome_counterexample :
    Vanilla.rollout gR rngW 5 0 false = some (true, 1)
    ∧ gR.points_values true 1 = 0
    ∧ gR.points_values true 2 = 0 :=
  ⟨rfl, rfl, rfl⟩

/-- C1 (amended): the selection score of mcts_vanilla400.py (and of
mcts_modified500.py) is exactly the formula of the claim,
(exploit flipped by mover) + C * sqrt(ln(parent.visits) / child.visits)
with C = 2; the selection score of mcts_vanilla.py instead uses
C * sqrt(ln(parent.visits / child.visits)), with the division inside the
logarithm. -/
theorem uct_formula_corrected :
    (∀ (w v pv : Nat) (b : Bool), uct_exp1 w v pv b = uct_spec w v pv b)
    ∧ (∀ (w v pv : Nat) (b : Bool),
        uct_vanilla w v pv b
          = (if b then (w : Real) / v else 1 - (w : Real) / v)
            + explore_faction * Real.sqrt (Real.log ((pv : Real) / v))) :=
  ⟨fun _ _ _ _ => rfl, fun _ _ _ _ => rfl⟩

/-- C1 (counterexample): at a child with 0 wins and 2 visits under a parent
with 8 visits, the score computed by mcts_vanilla.py differs from the
claimed formula: sqrt(ln(8 / 2)) is not sqrt(ln 8 / 2). -/
theorem uct_formula_counterexample :
    uct_vanilla 0 2 8 false ≠ uct_spec 0 2 8 false := by
  unfold uct_vanilla uct_spec explore_faction
  simp only [Bool.false_eq_true, if_false]
  norm_num
  have hlog2 : (0 : Real) < Real.log 2 := Real.log_pos (by norm_num)
  have h4 : Real.log (4 : Real) = 2 * Real.log 2 := by
    rw [show (4 : Real) = 2 ^ 2 by norm_num, Real.log_pow]
    push_cast
    ring
  have h8 : Real.log (8 : Real) = 3 * Real.log 2 := by
    rw [show (8 : Real) = 2 ^ 3 by norm_num, Real.log_pow]
    push_cast
    ring
  have hlt : Real.log 8 / 2 < Real.log 4 := by
    rw [h4, h8]
    linarith
  have hnn : 0 ≤ Real.log 8 / 2 := by
    rw [h8]
    positivity
  have hs := Real.sqrt_lt_sqrt hnn hlt
  intro heq
  have hdiv : Real.sqrt (Real.log 8 / 2) = Real.sqrt (Real.log 8) / Real.sqrt 2 :=
    Real.sqrt_div (by rw [h8]; positivity) 2
  rw [hdiv] at hs
  rw [heq] at hs
  exact lt_irrefl _ hs

/-- C4 (amended): in mcts_vanilla400.py (and mcts_modified500.py) the
candidate-list scan collects exactly the children attaining the maximal
score — whenever several children tie at the maximum, all of them are
candidates and each one is reachable by some draw of random.choice; in
mcts_vanilla.py the descent instead keeps the first child whose score
strictly exceeds the running best, resolving ties deterministically in
favour of the earliest-scanned child (see the counterexample). -/
theorem tie_break_uniform {β : Type} (score : β → Real) (cs : List β)
    (hpos : ∀ x ∈ cs, 0 ≤ score x) (hne : cs ≠ []) :
    (∀ x ∈ (e1Scan score cs).2, score x = (e1Scan score cs).1)
    ∧ (∀ x ∈ cs, score x ≤ (e1Scan score cs).1)
    ∧ (∀ x ∈ cs, score x = (e1Scan score cs).1 → x ∈ (e1Scan score cs).2)
    ∧ (∀ x ∈ (e1Scan score cs).2, x ∈ cs)
    ∧ (e1Scan score cs).2 ≠ []
    ∧ (∀ x ∈ (e1Scan score cs).2, ∃ k,
        (e1Scan score cs).2[k % (e1Scan score cs).2.length]? = some x) := by
  obtain ⟨g1, g2, g3, g4, g5⟩ := e1Scan_char score cs hpos hne
  exact ⟨g1, g2, g3, g4, g5, fun x hx => pick_reaches_mem hx⟩

/-- Witness for C4 on a singleton candidate list. -/
theorem tie_break_uniform_witness :
    ((∀ x ∈ ([0] : List Nat), 0 ≤ (fun _ : Nat => (0 : Real)) x)
      ∧ ([0] : List Nat) ≠ [])
    ∧ ((∀ x ∈ (e1Scan (fun _ : Nat => (0 : Real)) [0]).2,
          (fun _ : Nat => (0 : Real)) x = (e1Scan (fun _ : Nat => (0 : Real)) [0]).1)
      ∧ (∀ x ∈ ([0] : List Nat),
          (fun _ : Nat => (0 : Real)) x ≤ (e1Scan (fun _ : Nat => (0 : Real)) [0]).1)
      ∧ (∀ x ∈ ([0] : List Nat),
          (fun _ : Nat => (0 : Real)) x = (e1Scan (fun _ : Nat => (0 : Real)) [0]).1 →
            x ∈ (e1Scan (fun _ : Nat => (0 : Real)) [0]).2)
      ∧ (∀ x ∈ (e1Scan (fun _ : Nat => (0 : Real)) [0]).2, x ∈ ([0] : List Nat))
      ∧ (e1Scan (fun _ : Nat => (0 : Real)) [0]).2 ≠ []
      ∧ (∀ x ∈ (e1Scan (fun _ : Nat => (0 : Real)) [0]).2, ∃ k,
          (e1Scan (fun _ : Nat => (0 : Real)) [0]).2[k %
            (e1Scan (fun _ : Nat => (0 : Real)) [0]).2.length]? = some x)) :=
  ⟨⟨fun x _ => le_refl 0, by simp⟩,
    tie_break_uniform (fun _ : Nat => (0 : Real)) [0] (fun x _ => le_refl 0) (by simp)⟩

/-- C4 (counterexample): two children carrying identical statistics (hence
provably identical UCT scores) under mcts_vanilla.py's running-best scan:
the scan deterministically settles on the first child.  The scan takes no
source of randomness at all, so the second tied child can never be
selected, contradicting uniform-random tie-breaking. -/
theorem tie_break_counterexample :
    ((fun kc : Nat × MCTSNode Nat =>
        uct_vanilla kc.2.wins kc.2.visits 2 false) (0, MCTSNode.mk 0 1 [] [])
      = (fun kc : Nat × MCTSNode Nat =>
        uct_vanilla kc.2.wins kc.2.visits 2 false) (1, MCTSNode.mk 0 1 [] []))
    ∧ (vanillaScan (fun kc : Nat × MCTSNode Nat =>
        uct_vanilla kc.2.wins kc.2.visits 2 false)
      [(0, MCTSNode.mk 0 1 [] []), (1, MCTSNode.mk 0 1 [] [])]).2
      = some (0, MCTSNode.mk 0 1 [] []) := by
  constructor
  · rfl
  · have hpos : uct_vanilla 0 1 2 false > 0 := by
      unfold uct_vanilla explore_faction
      simp only [Bool.false_eq_true, if_false]
      have h1 := Real.sqrt_nonneg (Real.log (((2 : Nat) : Real) / ((1 : Nat) : Real)))
      push_cast
      nlinarith [h1]
    show (if uct_vanilla 0 1 2 false > 0 then
        vanillaScanAux (fun kc : Nat × MCTSNode Nat =>
          uct_vanilla kc.2.wins kc.2.visits 2 false)
          (uct_vanilla 0 1 2 false, some (0, MCTSNode.mk 0 1 [] []))
          [(1, MCTSNode.mk 0 1 [] [])]
      else
        vanillaScanAux (fun kc : Nat × MCTSNode Nat =>
          uct_vanilla kc.2.wins kc.2.visits 2 false)
          (0, none) [(1, MCTSNode.mk 0 1 [] [])]).2
      = some (0, MCTSNode.mk 0 1 [] [])
    rw [if_pos hpos]
    show (if uct_vanilla 0 1 2 false > uct_vanilla 0 1 2 false then
        vanillaScanAux (fun kc : Nat × MCTSNode Nat =>
          uct_vanilla kc.2.wins kc.2.visits 2 false)
          (uct_vanilla 0 1 2 false, some (1, MCTSNode.mk 0 1 [] [])) []
      else
        vanillaScanAux (fun kc : Nat × MCTSNode Nat =>
          uct_vanilla kc.2.wins kc.2.visits 2 false)
          (uct_vanilla 0 1 2 false, some (0, MCTSNode.mk 0 1 [] [])) []).2
      = some (0, MCTSNode.mk 0 1 [] [])
    rw [if_neg (lt_irrefl (uct_vanilla 0 1 2 false))]
    rfl
